import Mathlib

/-!
# CRC RevEng — verification of the spec against the source

Shallow embedding of the CRC RevEng search core (`src/reveng.c`) and the
relevant parts of the command-line driver (`src/cli.c`).

The repository ships `reveng.c` and `cli.c`; the polynomial store
(`poly.c`), the model utilities (`model.c`) and the header `reveng.h` are
external to the given sources, so every definition in the "Bit-polynomial
store" and "Model utilities" sections below is modelled from the spec
(sections 3, 4.1, 4.2 and 4.3) and is marked as such.  Everything in the
"reveng.c" and "cli.c" sections is translated directly from the C source.

A polynomial is a list of coefficient bits; index 0 is the most
significant (highest-degree) coefficient, exactly as in the spec's data
model ("Bit index 0 is the most significant coefficient; the degree
equals len - 1 when len > 0.  The zero polynomial has len = 0.").
-/

namespace Reveng

/-- Modelled from the spec: the bit-polynomial store `P`.  A `Poly` is a
finite list of GF(2) coefficients, MSB first; `PZERO` is `[]`. -/
abbrev Poly := List Bool

/-- Modelled from the spec: `plen` returns the stored bit length. -/
def plen (p : Poly) : Nat := p.length

/-- Modelled from the spec: `pcoeff(p, i)` returns the coefficient at bit
index `i` (MSB-first); out-of-range reads give 0. -/
def pcoeff (p : Poly) (i : Nat) : Bool := p.getD i false

/-- Modelled from the spec: `ptst(p)` is true iff `p` is nonzero. -/
def ptst (p : Poly) : Bool := p.any id

/-- Modelled from the spec: `pclone`/`pcpy` deep-copy a polynomial; in the
functional embedding this is the identity. -/
def pclone (p : Poly) : Poly := p

/-- Modelled from the spec: `palloc(n)` creates an `n`-bit zero poly. -/
def palloc (n : Nat) : Poly := List.replicate n false

/-- Modelled from the spec: `pnorm` strips trailing zero coefficients,
reducing `len` accordingly (a normalized nonzero poly ends in a 1 bit). -/
def pnorm (p : Poly) : Poly := (p.reverse.dropWhile (fun b => !b)).reverse

/-- Modelled from the spec: `prev(p)` bit-reverses the whole buffer. -/
def prev (p : Poly) : Poly := p.reverse

/-- Modelled from the spec: `pinv` inverts every stored bit (used by
`reveng()` to build the all-ones bound for the short-mode range check). -/
def pinv (p : Poly) : Poly := p.map (fun b => !b)

/-- Modelled from the spec: `pright(p, n)` sets the length to exactly `n`
keeping the original right-alignment (truncating high bits or zero-padding
at the most significant end). -/
def pright (p : Poly) (n : Nat) : Poly :=
  if n ≤ p.length then p.drop (p.length - n)
  else List.replicate (n - p.length) false ++ p

/-- Modelled from the spec: `praloc(p, n)` resizes the storage to `n` bits,
clearing any new bits; shrinking truncates at the least significant end
(this is the behaviour `engini()` relies on to "trim the augment mask
bit", which lives at the highest index). -/
def praloc (p : Poly) (n : Nat) : Poly :=
  (p ++ List.replicate (n - p.length) false).take n

/-- Modelled from the spec: `pcmp` is a total order, strict lexicographic
on bits MSB-first, with the longer poly greater when the prefixes agree.
Returns -1, 0 or 1. -/
def pcmp : Poly → Poly → Int
  | [], [] => 0
  | [], _ :: _ => -1
  | _ :: _, [] => 1
  | a :: as_, b :: bs => if a = b then pcmp as_ bs else if b then -1 else 1

/-- Modelled from the spec: `psum(dst, src, skip)` XORs `src` into `dst`
starting at bit `skip` of `dst`; bits of `src` that would land past the
end of `dst` are discarded. -/
def psum : Poly → Poly → Nat → Poly
  | [], _, _ => []
  | d :: ds, src, k + 1 => d :: psum ds src k
  | d :: ds, [], 0 => d :: ds
  | d :: ds, s :: ss, 0 => (xor d s) :: psum ds ss 0

/-- Modelled from the spec: `pshift(dst, src, head, start, end, fill)`
builds `head` zero bits, then bits `[start, end)` of `src` (zero where
`src` is exhausted), then `fill` zero bits. -/
def pshift (src : Poly) (head start end_ fill : Nat) : Poly :=
  List.replicate head false ++
    (List.range (end_ - start)).map (fun i => src.getD (start + i) false) ++
    List.replicate fill false

/-- Modelled from the spec: `ppaste(dst, src, srcOff, dstStart, dstEnd,
dstCap)` writes `src[srcOff..]` into `dst[dstStart..dstEnd)`, growing
`dst` as needed but never past `dstCap` bits. -/
def ppaste (dst src : Poly) (srcOff dstStart dstEnd dstCap : Nat) : Poly :=
  (List.range (min (max dst.length dstEnd) dstCap)).map (fun i =>
    if dstStart ≤ i ∧ i < dstEnd then src.getD (srcOff + (i - dstStart)) false
    else dst.getD i false)

/-- Little-endian increment used by `piter`: add one at the head of the
list-of-bits, returning the carry out. -/
def incLE : List Bool → List Bool × Bool
  | [] => ([], true)
  | false :: bs => (true :: bs, false)
  | true :: bs =>
    let rc := incLE bs
    (false :: rc.1, rc.2)

/-- Modelled from the spec: `piter(p)` treats `p` as a fixed-width binary
counter with its LSB at the highest index and increments it; the Bool is
true while the counter has not wrapped to zero. -/
def piter (p : Poly) : Poly × Bool :=
  let rc := incLE p.reverse
  (rc.1.reverse, !rc.2)

/-- Modelled from the spec: `pfirst(p)` is the index of the leftmost set
bit, or `len(p)` when there is none. -/
def pfirst (p : Poly) : Nat := p.findIdx (fun b => b)

/-- Modelled from the spec: `pmpar(p, mask)` is the XOR-parity of `p`
masked with `mask` (positions past the shorter operand contribute 0). -/
def pmpar (p mask : Poly) : Bool :=
  (p.zip mask).foldl (fun a bm => xor a (bm.1 && bm.2)) false

/-- Modelled from the spec: `prcp(p)` reciprocates a chopped generator of
width `w`: reverse the buffer and rotate left one bit, yielding the
chopped form of the reversed algorithm's generator. -/
def prcp (p : Poly) : Poly :=
  match prev p with
  | [] => []
  | h :: t => t ++ [h]

/-- Modelled from the spec: `prevch(p, k)` bit-reverses each `k`-bit
character chunk of `p` in place (`k = 0` leaves `p` unchanged). -/
def prevchGo (k : Nat) : Nat → List Bool → List (List Bool)
  | 0, _ => []
  | _, [] => []
  | fuel + 1, l => (l.take k).reverse :: prevchGo k fuel (l.drop k)

/-- Modelled from the spec: chunked per-character reflection. -/
def prevch (p : Poly) (k : Nat) : Poly :=
  if k = 0 then p else (prevchGo k p.length p).flatten

/-- XOR of two equal-length bit strings (helper for the CRC register). -/
def pxor (a b : Poly) : Poly := a.zipWith xor b

/-- Numeric (left-aligned) value of a polynomial: coefficient `i` carries
weight `2 ^ (len - 1 - i)`. -/
def pval : Poly → Nat
  | [] => 0
  | b :: t => (if b then 2 ^ t.length else 0) + pval t

/-- Little-endian numeric value (helper for `piter` reasoning). -/
def pvalLE : List Bool → Nat
  | [] => 0
  | b :: t => (if b then 1 else 0) + 2 * pvalLE t

/-- Carry-less (GF(2)) remainder on the numeric encodings, one reduction
step per unit of fuel.  Each step XORs a left-shifted copy of `b` onto `a`
clearing `a`'s top bit, so `a` strictly decreases; fuel `a + 1` always
suffices. -/
def gf2modGo : Nat → Nat → Nat → Nat
  | 0, a, _ => a
  | fuel + 1, a, b =>
    if a = 0 then 0
    else if Nat.log2 a < Nat.log2 b then a
    else gf2modGo fuel (Nat.xor a (b <<< (Nat.log2 a - Nat.log2 b))) b

/-- GF(2) polynomial remainder of the numeric encodings. -/
def gf2mod (a b : Nat) : Nat := if b = 0 then a else gf2modGo (a + 1) a b

/-- MSB-first bit string of a Nat, shortest form (0 becomes `[]`). -/
def natBits (n : Nat) : List Bool :=
  if h : n = 0 then []
  else natBits (n / 2) ++ [n % 2 == 1]
decreasing_by exact Nat.div_lt_self (Nat.pos_of_ne_zero h) (by omega)

/-- Modelled from the spec: `pmod(a, b)` is the GF(2) remainder of the
left-aligned operands.  When `len(a) < len(b)` the dividend is aligned to
the divisor's left edge (padded at the low end), which is why `modpol()`
swaps its operands first ("poly_mod(short, long) == short whereas pmod()
left-aligns operands").  The result is returned normalized; every caller
in `modpol()` immediately applies `pnorm`, so this loses nothing. -/
def pmod (a b : Poly) : Poly :=
  let a' := if a.length < b.length then a ++ List.replicate (b.length - a.length) false else a
  natBits (gf2mod (pval a') (pval b))

/-! ## CRC engine (modelled from spec section 4.2; `poly.c` is absent) -/

/-- Flag bits.  Modelled from the spec: `reveng.h` is not among the given
sources, so the concrete values are chosen as distinct powers of two; no
claim depends on the numeric values. -/
def P_REFIN : Nat := 1

/-- Modelled from the spec: RefOut flag bit. -/
def P_REFOUT : Nat := 2

/-- Modelled from the spec: augmenting (classical) algorithm flag bit. -/
def P_MULXN : Nat := 4

/-- Modelled from the spec: right-justified I/O flag bit. -/
def P_RTJUST : Nat := 8

/-- Modelled from the spec: uppercase output flag bit. -/
def P_UPPER : Nat := 16

/-- Modelled from the spec: spaced output flag bit. -/
def P_SPACE : Nat := 32

/-- Modelled from the spec: little-endian byte order in files flag bit. -/
def P_LTLBYT : Nat := 64

/-- Modelled from the spec: raw binary input flag bit. -/
def P_DIRECT : Nat := 128

/-- Modelled from the spec: skip equivalent forms (exhaust) flag bit. -/
def P_EXHST : Nat := 256

/-- Modelled from the spec: search flag, poly given. -/
def R_HAVEP : Nat := 1

/-- Modelled from the spec: search flag, init given. -/
def R_HAVEI : Nat := 2

/-- Modelled from the spec: search flag, refin given. -/
def R_HAVERI : Nat := 4

/-- Modelled from the spec: search flag, xorout given. -/
def R_HAVEX : Nat := 8

/-- Modelled from the spec: search flag, refout given. -/
def R_HAVERO : Nat := 16

/-- Modelled from the spec: search flag, range end poly given. -/
def R_HAVEQ : Nat := 32

/-- Modelled from the spec: short-mode (compact GCD) search flag. -/
def R_SHORT : Nat := 64

/-- Modelled from the spec: progress spinner mask; progress is reported
every `R_SPMASK + 1` trial candidates, so the mask is of the form
`2 ^ k - 1`.  The concrete value in the absent `reveng.h` is immaterial
to the claims. -/
def R_SPMASK : Nat := 2 ^ 18 - 1

/-- Clear the flag bits `b` in `f` (the C `f &= ~b`). -/
def clearF (f b : Nat) : Nat := f ^^^ (f &&& b)

/-- One shift step of the Williams engine: shift the register left one
bit, feed `b` in at the bottom, and XOR the chopped `poly` in when the
bit shifted out of the top is 1.  Returns the new register and the
feedback (quotient) bit. -/
def crcStep (poly r : Poly) (b : Bool) : Poly × Bool :=
  match r ++ [b] with
  | [] => ([], false)
  | out :: rest => (if out then pxor rest poly else rest, out)

/-- Run the engine over a bit stream, collecting the feedback bits. -/
def crcRun (poly : Poly) : Poly → List Bool → Poly × List Bool
  | r, [] => (r, [])
  | r, b :: bs =>
    let s := crcStep poly r b
    let t := crcRun poly s.1 bs
    (t.1, s.2 :: t.2)

/-- Modelled from the spec (4.2): `pcrc(message, poly, init, xorout,
flags)` with the optional quotient output.  The register is seeded by
XORing `init` into the first `width` bits of the (right-zero-padded)
message; each further bit is shifted in with polynomial feedback; under
`P_MULXN` a further `width` zero bits are shifted in; finally `xorout` is
XORed in.  The second component records the feedback bit of every
consumed message bit (the augmenting tail does not contribute), the
quotient of the division. -/
def pcrcFull (message poly init xorout : Poly) (flags : Nat) : Poly × Poly :=
  let width := poly.length
  let padded := message ++ List.replicate (width - message.length) false
  let r0 := pxor (padded.take width) (pright init width)
  let run := crcRun poly r0 (padded.drop width)
  let r1 := if flags &&& P_MULXN ≠ 0 then (crcRun poly run.1 (List.replicate width false)).1
            else run.1
  (pxor r1 (pright xorout width), run.2)

/-- Modelled from the spec (4.2): the CRC value alone. -/
def pcrc (message poly init xorout : Poly) (flags : Nat) : Poly :=
  (pcrcFull message poly init xorout flags).1

/-! ## Model (spec section 3 / 4.3; `model.c` and `reveng.h` are absent) -/

/-- The Williams model record of `reveng.h`, modelled from the spec's data
model table: chopped generator, init, flags word, xorout, derived check
and magic values, optional catalog name. -/
structure model_t where
  spoly : Poly
  init : Poly
  flags : Nat
  xorout : Poly
  check : Poly
  magic : Poly
  name : Option String
deriving DecidableEq, Repr

/-- The zero-filled sentinel model (`MZERO` fields as written by
`reveng()` when it terminates the result array). -/
def mzero : model_t :=
  { spoly := [], init := [], flags := 0, xorout := [], check := [], magic := [], name := none }

/-- The ASCII bytes of "123456789", MSB-first per byte. -/
def checkBytes : List Nat := [0x31, 0x32, 0x33, 0x34, 0x35, 0x36, 0x37, 0x38, 0x39]

/-- A byte as 8 bits, MSB first. -/
def byteBits (n : Nat) : List Bool :=
  (List.range 8).map (fun i => n.testBit (7 - i))

/-- Modelled from the spec: the check string "123456789" as a bit stream,
with each 8-bit character reflected when `P_REFIN` is set (the reflection
of input characters is performed upstream of the engine). -/
def checkBits (flags : Nat) : Poly :=
  (checkBytes.map (fun b =>
    if flags &&& P_REFIN ≠ 0 then (byteBits b).reverse else byteBits b)).flatten

/-- Modelled from the spec (4.3): `mcheck(m)` sets `check` to the CRC of
"123456789" under the model and `magic` to `pcrc(all-ones) XOR xorout`.
In the Williams model `xorout` applies after the RefOut stage, so the
engine is fed the reflected `xorout` and the register is reflected before
reporting when `P_REFOUT` is set.  No claim inspects these two fields. -/
def mcheck (m : model_t) : model_t :=
  let w := plen m.spoly
  let xout := if m.flags &&& P_REFOUT ≠ 0 then prev (pright m.xorout w) else pright m.xorout w
  let c0 := pcrc (checkBits m.flags) m.spoly m.init xout m.flags
  let check := if m.flags &&& P_REFOUT ≠ 0 then prev c0 else c0
  let g0 := pcrc (List.replicate w true) m.spoly (palloc w) (palloc w) m.flags
  let magic := pxor (if m.flags &&& P_REFOUT ≠ 0 then prev g0 else g0) (pright m.xorout w)
  { m with check := check, magic := magic }

/-- Modelled from the spec (4.3): `mnovel` clears the catalog name. -/
def mnovel (m : model_t) : model_t := { m with name := none }

/-- Modelled from the spec (4.3 and the cli.c comment "spoly may be blank
which will normalise to zero and clear init and xorout"): `mcanon`
normalises the generator and masks `init` and `xorout` to the resulting
width. -/
def mcanon (m : model_t) : model_t :=
  let sp := pnorm m.spoly
  let w := plen sp
  { m with spoly := sp, init := pright m.init w, xorout := pright m.xorout w }

/-! ## reveng.c — the search core (translated from `src/reveng.c`) -/

/-- A progress report: the arguments of one `uprog()` callback invocation
(`uprog(factor, guess->flags, seq++)`), instrumented with `trial`, the
value of the `spin` counter at the moment of the call (the index of the
trial candidate being examined; not passed to `uprog` by the C code). -/
structure ProgEvent where
  trial : Nat
  gpoly : Poly
  flags : Nat
  seq : Nat
deriving DecidableEq, Repr

/-- `chkres()` (reveng.c:520): check a candidate model against every
argument; on success append the fully populated model (with `check` and
`magic` computed by `mcheck`) to the results.  The returned list is the
sequence of models appended and reported via the `ufound` callback. -/
def chkres (divisor init : Poly) (flags : Nat) (xorout : Poly) (argpolys : List Poly) :
    List model_t :=
  let x := if flags &&& P_REFOUT ≠ 0 then prev (pclone xorout) else pclone xorout
  if argpolys.all (fun a => !ptst (pcrc a divisor init x 0)) then
    [mcheck { spoly := pclone divisor, init := pclone init, flags := flags,
              xorout := pclone xorout, check := [], magic := [], name := none }]
  else []

/-- First argument of minimal length (`alen = plen(*(aptr = iptr =
argpolys)); ...` selection loops of `calout()`/`calini()`, which keep the
first strict minimum). -/
def shortestP (l : List Poly) : Poly :=
  l.foldl (fun acc p => if plen p < plen acc then p else acc) (l.headD [])

/-- `calout()` (reveng.c:436): derive XorOut from the shortest argument,
reflect it when `P_REFOUT` is set, and verify via `chkres()`. -/
def calout (divisor init : Poly) (flags : Nat) (argpolys : List Poly) : List model_t :=
  if argpolys = [] then []
  else
    let sh := shortestP argpolys
    let x0 := pcrc sh divisor init [] 0
    let xorout := if flags &&& P_REFOUT ≠ 0 then prev x0 else x0
    chkres divisor init flags xorout argpolys

/-- `calini()` (reveng.c:473): derive Init by running the reversed
shortest argument through the reciprocal generator with the (mirror of
the) XorOut as seed, then verify via `chkres()`. -/
def calini (divisor : Poly) (flags : Nat) (xorout : Poly) (argpolys : List Poly) :
    List model_t :=
  if argpolys = [] then []
  else
    let sh := shortestP argpolys
    let rcpdiv := prcp (pclone divisor)
    let rxor := if flags &&& P_REFOUT = 0 then prev (pclone xorout) else pclone xorout
    let arg := prev (pclone sh)
    let init := prev (pcrc arg rcpdiv rxor [] 0)
    chkres divisor init flags xorout argpolys

/-- Row of `engini()`'s CRC matrix.  The C code distinguishes rows by
pointer identity against the two fixed singletons `pzero` ("empty row")
and `bpoly` ("one row"); freshly computed rows can never alias them, so
the three states are modelled as a tagged variant exactly as the spec's
design note prescribes. -/
inductive Row where
  | rzero : Row
  | rone : Row
  | rdata : Poly → Row
deriving DecidableEq, Repr

instance : Inhabited Row := ⟨Row.rzero⟩

/-- The poly value a `Row` contributes: `pzero` is the zero-length poly,
`bpoly` is the `dlen + 1`-bit poly with only bit `dlen` set (allocated by
`palloc(&bpoly, dlen+1); psum(&bpoly, pone, dlen)`). -/
def rowVal (dlen : Nat) : Row → Poly
  | Row.rzero => []
  | Row.rone => palloc dlen ++ [true]
  | Row.rdata p => p

/-- The two-shortest-arguments selection loop of `engini()` (reveng.c:318
to 327), carried out on indices so that the C pointer comparison
`aptr == bptr` can be expressed: state is `(ai, alen, bi, blen)`. -/
def tsGo : Nat → List Poly → Nat × Nat × Nat × Nat → Nat × Nat × Nat × Nat
  | _, [], st => st
  | i, p :: rest, (ai, alen, bi, blen) =>
    let ilen := plen p
    let st' :=
      if ilen < alen then (i, ilen, ai, alen)
      else if ilen > alen ∧ (ai = bi ∨ ilen < blen) then (ai, alen, i, ilen)
      else (ai, alen, bi, blen)
    tsGo (i + 1) rest st'

/-- The column chain of `engini()` (reveng.c:365): starting from the Init
contribution column, each further column is the CRC of a single zero bit
under the previous column as Init, in augmenting mode. -/
def iterCols (divisor : Poly) : Nat → Poly → List Poly
  | 0, _ => []
  | n + 1, c => c :: iterCols divisor n (pcrc [false] divisor c [] P_MULXN)

/-- The row-reduction inner loop of `engini()` (reveng.c:380): XOR pivot
rows into `apoly` while its leading bit hits a populated row.  Each step
strictly increases `pfirst`, so `dlen + 1` rounds of fuel suffice. -/
def reduceRow : Nat → Array Row → Nat → Poly → Poly
  | 0, _, _, ap => ap
  | fuel + 1, mat, dlen, ap =>
    let j := pfirst ap
    if j < dlen ∧ mat.getD j Row.rzero ≠ Row.rzero then
      reduceRow fuel mat dlen (psum ap (rowVal dlen (mat.getD j Row.rzero)) 0)
    else ap

/-- The matrix build of `engini()` (reveng.c:372 to 388): transpose the
column chain, augment with the Init contribution, convert to row echelon
form.  `cols` is `[mat[dlen], ..., mat[2 dlen - 1]]`. -/
def buildMat (dlen : Nat) (cols : List Poly) (bpolyV : Poly) : Array Row :=
  (List.range dlen).foldl (fun mat i =>
    let ap0 := (List.range dlen).foldl (fun ap j =>
      ppaste ap (cols.getD (dlen - 1 - j) []) i j (j + 1) (dlen + 1)) []
    let ap1 := if ptst ap0 then ppaste ap0 bpolyV i dlen (dlen + 1) (dlen + 1) else ap0
    let ap2 := reduceRow (dlen + 1) mat dlen ap1
    let j := pfirst ap2
    if j < dlen then mat.set! j (Row.rdata ap2) else mat)
    (Array.mkArray dlen Row.rzero)

/-- One Gaussian back-substitution pass of `engini()`'s solution loop
(reveng.c:400 to 415): walk the rows from index `dlen - 1` down to 0,
building the candidate Init bit by bit, and toggle the free rows
(zero to one without carry, one to zero with carry) for the next
iteration.  Returns the candidate (still carrying the augment bit),
the final carry word and the updated matrix. -/
def solveStep (dlen flags : Nat) (mat0 : Array Row) (apoly0 : Poly) :
    Poly × Nat × Array Row :=
  (List.range dlen).foldl (fun st i =>
    let (ap, cy, mat) := st
    let r := dlen - 1 - i
    let row := mat.getD r Row.rzero
    let ap' := if pmpar ap (rowVal dlen row) then psum ap [true] (dlen - 1 - i) else ap
    if cy ≠ 0 then
      match row with
      | Row.rzero => (ap', cy &&& flags, mat.set! r Row.rone)
      | Row.rone => (ap', cy, mat.set! r Row.rzero)
      | Row.rdata _ => (ap', cy, mat)
    else (ap', cy, mat))
    (apoly0, P_EXHST, mat0)

/-- The solution loop of `engini()` (reveng.c:393 to 423): iterate over
all free-variable assignments, submitting each candidate Init to
`calout()`; stop when the carry survives (exhaust requested or the free
rows rolled over).  The free rows form a binary counter, so
`2 ^ dlen + 1` units of fuel always suffice. -/
def solveLoop (divisor : Poly) (flags : Nat) (args : List Poly) (dlen : Nat) :
    Nat → Array Row → List model_t
  | 0, _ => []
  | fuel + 1, mat =>
    let st := solveStep dlen flags mat (rowVal dlen Row.rone)
    let init := praloc st.1 dlen
    let ms := calout divisor init flags args
    if st.2.1 ≠ 0 then ms else ms ++ solveLoop divisor flags args dlen fuel st.2.2

/-- `engini()` (reveng.c:297): search for Init values by row-reduction
over GF(2) after Ewing.  With no arguments the C code would read past the
argument array; the embedding treats the missing first argument as the
zero poly, which sends it down the `calini` path where `args < 1` quits
(this input is unreachable from the claims).  -/
def engini (divisor : Poly) (flags : Nat) (argpolys : List Poly) : List model_t :=
  let dlen := plen divisor
  let arg0 := argpolys.headD []
  let ts := tsGo 1 argpolys.tail (0, plen arg0, 0, plen arg0)
  let (ai, alen, bi, blen) := ts
  if ai = bi then
    calini divisor flags (palloc dlen) argpolys
  else
    let aP := argpolys.getD ai []
    let bP := argpolys.getD bi []
    let pone : Poly := [true]
    let apoly0 :=
      if blen < 2 * dlen then
        psum (psum (palloc dlen) pone (2 * dlen - 1 - blen)) pone (2 * dlen - 1 - alen)
      else
        psum (psum (palloc (blen - dlen + 1)) pone 0) pone (blen - alen)
    let col0 := if plen apoly0 > dlen then pcrc apoly0 divisor [] [] 0 else apoly0
    let crcA := pcrc aP divisor [] [] 0
    let bpolyV := pcrc bP divisor [] crcA 0
    let cols := iterCols divisor dlen col0
    let mat := buildMat dlen cols bpolyV
    solveLoop divisor flags argpolys dlen (2 ^ dlen + 1) mat

/-- `dispch()` (reveng.c:285): four-way dispatch on which of Init and
XorOut are given. -/
def dispch (guess : model_t) (divisor : Poly) (rflags : Nat) (argpolys : List Poly) :
    List model_t :=
  if rflags &&& R_HAVEI ≠ 0 ∧ rflags &&& R_HAVEX ≠ 0 then
    chkres divisor guess.init guess.flags guess.xorout argpolys
  else if rflags &&& R_HAVEI ≠ 0 then
    calout divisor guess.init guess.flags argpolys
  else if rflags &&& R_HAVEX ≠ 0 then
    calini divisor guess.flags guess.xorout argpolys
  else
    engini divisor guess.flags argpolys

/-- `pcpy(dst, src)` in the functional embedding. -/
def pcpy (_dst src : Poly) : Poly := src

/-- The per-pair difference of `modpol()` (reveng.c:233 to 247): XOR of
equal-length pairs; under `R_HAVEI` the right-aligned XOR of unequal
pairs with `init` XORed in at offset 0 and at the alignment offset;
otherwise no contribution. -/
def pairWork (init : Poly) (rflags : Nat) (a b : Poly) : Poly :=
  if plen a = plen b then psum (pclone a) b 0
  else if rflags &&& R_HAVEI ≠ 0 ∧ plen a < plen b then
    psum (psum (psum (pclone b) a (plen b - plen a)) init 0) init (plen b - plen a)
  else if rflags &&& R_HAVEI ≠ 0 then
    psum (psum (psum (pclone a) b (plen a - plen b)) init 0) init (plen a - plen b)
  else []

/-- The GCD combination loop of `modpol()` (reveng.c:255 to 277): swap so
the dividend is the longer operand (pmod left-aligns), take the
remainder, shift the operands along and normalise, until the remainder
vanishes.  The normalized remainder shrinks at every round, so
`len gcd + len work + 2` units of fuel always suffice; called with
`work` normalized and nonzero. -/
def gcdLoop : Nat → Poly → Poly → Poly
  | 0, gcd, _ => gcd
  | fuel + 1, gcd, work =>
    let gw := if plen gcd < plen work then (work, gcd) else (gcd, work)
    let rem := pmod gw.1 gw.2
    let work' := pnorm rem
    if plen work' = 0 then gw.2 else gcdLoop fuel gw.2 work'

/-- All ordered pairs `(argpolys[i], argpolys[j])` with `i < j`, in the
traversal order of `modpol()`'s nested loops. -/
def allPairs : List Poly → List (Poly × Poly)
  | [] => []
  | a :: rest => rest.map (fun b => (a, b)) ++ allPairs rest

/-- `modpol()` (reveng.c:212): the GCD of all pairwise differences of the
arguments.  The C `nogcd` first-time flag is represented by the
accumulator still being the zero poly: the accumulated GCD is normalized
and nonzero from the first contribution on. -/
def modpol (init : Poly) (rflags : Nat) (argpolys : List Poly) : Poly :=
  if argpolys.length < 2 then []
  else
    (allPairs argpolys).foldl (fun gcd ab =>
      let w0 := pairWork init rflags ab.1 ab.2
      let w1 := if plen w0 ≠ 0 then pnorm w0 else w0
      if plen w1 ≠ 0 then
        if plen gcd = 0 then pcpy gcd w1
        else gcdLoop (plen gcd + plen w1 + 2) gcd w1
      else gcd) []

/-- The short-mode set-up of `reveng()` (reveng.c:110 to 140), reached
when the poly is unknown and enumeration is required; `rflags` arrives
with `R_SHORT` already cleared, `factor` is the clone of the guess's
spoly, `qq` the clone of `qpoly` (or the zero poly without `R_HAVEQ`) and
`lenD` the length of the normalized GCD of differences.  When the GCD is
compact (`lenD ≤ 2 * width`), `R_SHORT` is set, the range endpoints are
validated against the all-ones maximum of the reduced length, and the
trial factor is truncated to `lenD - width - 1` bits; `none` means the
start polynomial was out of range and the search is abandoned. -/
def searchSetup (factor qq : Poly) (rflags lenD : Nat) : Option (Poly × Poly × Nat) :=
  if lenD ≤ 2 * plen factor then
    let rflags1 := rflags ||| R_SHORT
    let tlen := lenD - plen factor - 1
    if rflags1 &&& R_HAVEQ ≠ 0 ∨ ptst factor then
      let rem := pright (pinv (palloc tlen)) (plen factor)
      if pcmp rem factor < 0 then none
      else if pcmp rem qq < 0 then
        some (pright factor tlen, qq, clearF rflags1 R_HAVEQ)
      else if rflags1 &&& R_HAVEQ ≠ 0 then
        some (pright factor tlen, pright qq tlen, rflags1)
      else
        some (pright factor tlen, qq, rflags1)
    else
      some (pright factor tlen, qq, rflags1)
  else
    some (factor, qq, rflags)

/-- One division test of the trial loop (reveng.c:156 to 180): the
candidate divisor dispatched when the factor divides the GCD.  In short
mode the quotient of the division is chopped, its +1 term restored with
`piter`, and dispatched as the generator; otherwise the factor itself is
the generator. -/
def trialModels (guess : model_t) (pwork factor : Poly) (rflags : Nat)
    (args : List Poly) : List model_t :=
  if rflags &&& R_SHORT ≠ 0 then
    let rem := pcrc pwork factor [] [] 0
    if !ptst rem then
      let q := (pcrcFull pwork factor [] [] 0).2
      let g0 := pshift q 0 1 (plen q - 1) 1
      let gpoly := (piter g0).1
      dispch guess gpoly rflags args
    else []
  else
    let rem := pcrc pwork factor [] [] 0
    if !ptst rem then dispch guess factor rflags args else []

/-- The trial-factor enumeration loop of `reveng()` (reveng.c:149 to
184).  `piter` advances the factor at the head of the loop and again at
its foot, so successive odd polynomials are examined; the loop stops when
the counter wraps or, under `R_HAVEQ`, when the factor reaches the range
end.  Every `R_SPMASK + 1` candidates a progress event is recorded
(`if(!(spin++ & R_SPMASK)) uprog(factor, guess->flags, seq++)`).  The
returned triple is (models appended, progress events, number of trial
candidates examined).  One candidate consumes two `piter` steps, so
`2 ^ len(factor) + 1` units of fuel always suffice. -/
def factorLoop (guess : model_t) (pwork qq : Poly) (rflags : Nat) (args : List Poly) :
    Nat → Poly → Nat → Nat → List model_t × List ProgEvent × Nat
  | 0, _, _, _ => ([], [], 0)
  | fuel + 1, factor, spin, seq =>
    let it := piter factor
    if it.2 && (rflags &&& R_HAVEQ = 0 || pcmp it.1 qq < 0) then
      let hit := spin &&& R_SPMASK = 0
      let ev : List ProgEvent :=
        if hit then [{ trial := spin, gpoly := it.1, flags := guess.flags, seq := seq }] else []
      let seq' := if hit then seq + 1 else seq
      let ms := trialModels guess pwork it.1 rflags args
      let it2 := piter it.1
      if it2.2 then
        let rest := factorLoop guess pwork qq rflags args fuel it2.1 (spin + 1) seq'
        (ms ++ rest.1, ev ++ rest.2.1, rest.2.2 + 1)
      else (ms, ev, 1)
    else ([], [], 0)

/-- The poly-unknown arm of `reveng()` (reveng.c:81 to 193): compute the
GCD of the differences, handle the too-short and exact-length cases, set
up (and possibly abandon) the enumeration, and run the trial loop from
`spin = 0, seq = 0` with the least significant term of the start factor
cleared ("to be set in the loop"). -/
def revengSearch (guess : model_t) (qpoly : Poly) (rflags : Nat) (args : List Poly) :
    List model_t × List ProgEvent :=
  if plen guess.spoly = 0 then ([], [])
  else
    let pwork := modpol guess.init rflags args
    if plen pwork < plen guess.spoly + 1 then ([], [])
    else if plen pwork = plen guess.spoly + 1 then
      (dispch guess (pshift pwork 0 1 (plen pwork) 0) rflags args, [])
    else
      let factor := pclone guess.spoly
      let qq := if rflags &&& R_HAVEQ ≠ 0 then pclone qpoly else []
      match searchSetup factor qq (clearF rflags R_SHORT) (plen pwork) with
      | none => ([], [])
      | some st =>
        let fs := pshift st.1 0 0 (plen st.1 - 1) 1
        let r := factorLoop guess pwork st.2.1 st.2.2 args (2 ^ plen fs + 1) fs 0 0
        (r.1, r.2.1)

/-- `reveng()` (reveng.c:68): complete the parameters of a model by
calculation or brute search.  Returns the result array — the discovered
models in emission order followed by the zero-filled sentinel — together
with the progress events. -/
def reveng (guess : model_t) (qpoly : Poly) (rflags : Nat) (args : List Poly) :
    List model_t × List ProgEvent :=
  let core :=
    if rflags &&& R_HAVEP ≠ 0 then (dispch guess guess.spoly rflags args, [])
    else revengSearch guess qpoly rflags args
  (core.1 ++ [mzero], core.2)

/-! ## cli.c — the driver (translated from `src/cli.c`) -/

/-- `uprog()` (cli.c:545): the CLI progress callback.  The first report
(`seq = 0`) is suppressed: the function returns immediately and prints
nothing.  Otherwise one line is printed; its content (formatted by
`ptostr`) is abstracted to the data it displays. -/
def uprog (gpoly : Poly) (flags : Nat) (seq : Nat) : Option (Poly × Nat) :=
  if seq = 0 then none else some (gpoly, flags)

/-- `C_NOPCK` (cli.c:73): skip the preset model check pass (`-F`). -/
def C_NOPCK : Nat := 2

/-- `C_NOBFS` (cli.c:74): skip the brute force search pass (`-G`). -/
def C_NOBFS : Nat := 4

/-- The crossed-endian test of cli.c:490:
`!(model.flags & P_REFIN) != !(model.flags & P_REFOUT)`. -/
def crossedEndian (flags : Nat) : Bool :=
  (flags &&& P_REFIN == 0) != (flags &&& P_REFOUT == 0)

/-- The `-c` mode of `main()` (cli.c:276 to 350, mode `'c'`): right-align
the parameters to the width, canonicalise the model, reverse `xorout`
when `P_REFOUT` is set (xorout applies after the refout stage, which is
part of the output formatting), and compute one CRC per argument.  The
commented-out "no polynomial specified" validation (cli.c:317 to 322) is
absent from the compiled code, so the function never fails: the `Except`
result is the error channel the validation would have used. -/
def calcMode (model : model_t) (width : Nat) (argPolys : List Poly) :
    Except String (List Poly) :=
  let m1 := { model with spoly := pright model.spoly width,
                         init := pright model.init width,
                         xorout := pright model.xorout width }
  let m2 := mcanon m1
  let m3 := if m2.flags &&& P_REFOUT ≠ 0 then { m2 with xorout := prev m2.xorout } else m2
  Except.ok (argPolys.map (fun a => pcrc a m3.spoly m3.init m3.xorout m3.flags))

/-- One catalog scan of the preset pass (cli.c:440 to 470): visit the
presets by descending index, skip on width or reflection mismatch, skip
when a given parameter differs, and keep the presets whose (reflected)
xorout solves every argument.  `psncmp` on the width-wide `init` and
`xorout` reduces to equality of the stored bit strings. -/
def presetScan (presets : List model_t) (model : model_t) (width : Nat)
    (rflags : Nat) (args : List Poly) : List model_t :=
  presets.reverse.filter (fun pset =>
    if plen pset.spoly ≠ width ∨ (model.flags ^^^ pset.flags) &&& (P_REFIN ||| P_REFOUT) ≠ 0 then
      false
    else if rflags &&& R_HAVEP ≠ 0 ∧ pcmp model.spoly pset.spoly ≠ 0 then false
    else if rflags &&& R_HAVEI ≠ 0 ∧ model.init ≠ pset.init then false
    else if rflags &&& R_HAVEX ≠ 0 ∧ model.xorout ≠ pset.xorout then false
    else
      let x := if pset.flags &&& P_REFOUT ≠ 0 then prev pset.xorout else pset.xorout
      args.all (fun a => !ptst (pcrc a pset.spoly pset.init x 0)))

/-- The preset pass of `main()` (cli.c:437 to 480): scan the catalog,
and when neither RefIn nor RefOut was pinned on the command line
(`~rflags & R_HAVERI`), toggle both reflection flags, reflect the
arguments per character, scan again, and restore (the toggle runs twice,
so the model and arguments leave the pass as they entered it). -/
def presetPass (presets : List model_t) (model : model_t) (width rflags : Nat)
    (ibperhx : Nat) (args : List Poly) : List model_t × model_t × List Poly :=
  let f1 := presetScan presets model width rflags args
  if rflags &&& R_HAVERI ≠ 0 then (f1, model, args)
  else
    let model2 := { model with flags := model.flags ^^^ (P_REFIN ||| P_REFOUT) }
    let args2 := args.map (fun p => prevch p ibperhx)
    let f2 := presetScan presets model2 width rflags args2
    let model3 := { model2 with flags := model2.flags ^^^ (P_REFIN ||| P_REFOUT) }
    let args3 := args2.map (fun p => prevch p ibperhx)
    (f1 ++ f2, model3, args3)

/-- The brute-force pass of `main()` (cli.c:492 to 511): call `reveng()`,
and when the reflection flags were not pinned, toggle them, reflect the
arguments and call again.  Returns the guesses passed to `reveng` and the
concatenated result arrays. -/
def brutePasses (model : model_t) (qpoly : Poly) (rflags : Nat) (ibperhx : Nat)
    (args : List Poly) : List model_t × List (List model_t) :=
  let r1 := reveng model qpoly rflags args
  if rflags &&& R_HAVERI ≠ 0 then ([model], [r1.1])
  else
    let model2 := { model with flags := model.flags ^^^ (P_REFIN ||| P_REFOUT) }
    let args2 := args.map (fun p => prevch p ibperhx)
    let r2 := reveng model2 qpoly rflags args2
    ([model, model2], [r1.1, r2.1])

/-- Outcome of a successful `-s` run: the presets that solved all the
arguments, the guesses passed to `reveng()`'s brute-force search, and the
result arrays it returned. -/
structure SearchOk where
  presetFound : List model_t
  revengCalls : List model_t
  bruteResults : List (List model_t)
deriving DecidableEq, Repr

/-- The parameter adjustment and preset pass of `-s` mode (cli.c:390 to
480): right-size the parameters to the width, drop `R_HAVEQ` when
`qpoly` is zero, and (unless `-F`) run the preset pass.  Returns the
state the brute-force stage starts from: (presets found, model,
arguments) and the adjusted `rflags`. -/
def searchPrep (presets : List model_t) (model0 : model_t) (qpoly : Poly)
    (rflags0 uflags width ibperhx : Nat) (args : List Poly) :
    (List model_t × model_t × List Poly) × Nat :=
  let m1 := { model0 with spoly := praloc model0.spoly width,
                          init := praloc model0.init width,
                          xorout := praloc model0.xorout width }
  let m2 := if plen m1.spoly = 0 then { m1 with spoly := palloc width } else m1
  let width1 := if plen m1.spoly = 0 then width else plen m2.spoly
  let rflags := if !ptst qpoly then clearF rflags0 R_HAVEQ else rflags0
  (if uflags &&& C_NOPCK = 0 then presetPass presets m2 width1 rflags ibperhx args
   else ([], m2, args), rflags)

/-- The `-s` mode of `main()` (cli.c:385 to 517).  Fatal errors reported
through `uerror()` (which never returns) are the `Except.error` cases, in
program order: the non-Williams check, the width check, the
skip-brute-force check, the crossed-endian check, and the final "no
models found" check.  The preset catalog (`mcount`/`mbynum`, external to
the given sources) is a parameter.  Non-fatal warnings about the sample
count only print to stderr and are not modelled. -/
def searchMode (presets : List model_t) (model0 : model_t) (qpoly : Poly)
    (rflags0 uflags width ibperhx : Nat) (args : List Poly) :
    Except String SearchOk :=
  if model0.flags &&& P_MULXN = 0 then
    Except.error "cannot search for non-Williams compliant models"
  else if width = 0 then
    Except.error "must specify positive -k, -P or -w before -s"
  else
    let pr := searchPrep presets model0 qpoly rflags0 uflags width ibperhx args
    let pp := pr.1
    let rflags := pr.2
    if pp.1 ≠ [] then Except.ok { presetFound := pp.1, revengCalls := [], bruteResults := [] }
    else if uflags &&& C_NOBFS ≠ 0 ∧ rflags &&& R_HAVEP = 0 then
      Except.error "no models found"
    else if crossedEndian pp.2.1.flags then
      Except.error "cannot search for crossed-endian models"
    else
      let br := brutePasses pp.2.1 qpoly rflags ibperhx pp.2.2
      if br.2.all (fun l => (l.headD mzero).spoly = []) then
        Except.error "no models found"
      else
        Except.ok { presetFound := [], revengCalls := br.1, bruteResults := br.2 }

/-! ## Basic lemmas about the embedding -/

/-- `pclone` is the identity in the functional embedding. -/
@[simp] theorem pclone_eq (p : Poly) : pclone p = p := rfl

/-- `pcpy` returns its source. -/
@[simp] theorem pcpy_eq (d s : Poly) : pcpy d s = s := rfl

/-- `mcheck` only fills in the derived `check` and `magic` fields. -/
@[simp] theorem mcheck_spoly (m : model_t) : (mcheck m).spoly = m.spoly := rfl

/-- `mcheck` preserves `init`. -/
@[simp] theorem mcheck_init (m : model_t) : (mcheck m).init = m.init := rfl

/-- `mcheck` preserves `flags`. -/
@[simp] theorem mcheck_flags (m : model_t) : (mcheck m).flags = m.flags := rfl

/-- `mcheck` preserves `xorout`. -/
@[simp] theorem mcheck_xorout (m : model_t) : (mcheck m).xorout = m.xorout := rfl

/-- The engine register stays empty when the divisor is empty. -/
theorem crcRun_nil_reg (poly : Poly) : ∀ l, (crcRun poly [] l).1 = [] := by
  intro l
  induction l with
  | nil => rfl
  | cons b bs ih =>
    simp only [crcRun, crcStep, List.nil_append]
    cases b <;> simpa [pxor] using ih

/-- The CRC under the zero-width (empty) generator is the zero-length
poly (spec 4.2 edge case). -/
theorem pcrc_nil (s i x : Poly) (fl : Nat) : pcrc s [] i x fl = [] := by
  simp only [pcrc, pcrcFull, List.length_nil, List.take_zero, List.drop_zero, pxor,
    List.zipWith_nil_left]
  split <;> simp [crcRun_nil_reg]

/-- The model check performed by `chkres()` on every model it appends:
every argument's CRC under the model, with `xorout` reflected when
`P_REFOUT` is set, is zero.  (This is the cross-path soundness invariant
of the search.) -/
def soundModel (args : List Poly) (m : model_t) : Prop :=
  ∀ s ∈ args, ptst (pcrc s m.spoly m.init
    (if m.flags &&& P_REFOUT ≠ 0 then prev m.xorout else m.xorout) 0) = false

/-- The sentinel model passes the check vacuously. -/
theorem soundModel_mzero (args : List Poly) : soundModel args mzero := by
  intro s _
  simp [mzero, pcrc_nil, ptst]

/-- Every model appended by `chkres()` carries exactly the divisor, init,
flags and xorout it was called with, and passes the model check. -/
theorem chkres_mem {m : model_t} {d i x : Poly} {f : Nat} {args : List Poly}
    (h : m ∈ chkres d i f x args) :
    m.spoly = d ∧ m.init = i ∧ m.flags = f ∧ m.xorout = x ∧ soundModel args m := by
  simp only [chkres, pclone_eq] at h
  by_cases hall : (args.all (fun a =>
      !ptst (pcrc a d i (if f &&& P_REFOUT ≠ 0 then prev x else x) 0))) = true
  · rw [if_pos hall] at h
    simp only [List.mem_singleton] at h
    subst h
    refine ⟨rfl, rfl, rfl, rfl, ?_⟩
    intro s hs
    simp only [List.all_eq_true] at hall
    have hx := hall s hs
    simp only [mcheck_spoly, mcheck_init, mcheck_flags, mcheck_xorout]
    simpa using hx
  · rw [if_neg hall] at h
    simp at h

/-- Divisor and soundness for `chkres` members. -/
theorem chkres_sound {m : model_t} {d i x : Poly} {f : Nat} {args : List Poly}
    (h : m ∈ chkres d i f x args) : m.spoly = d ∧ soundModel args m :=
  ⟨(chkres_mem h).1, (chkres_mem h).2.2.2.2⟩

/-- Divisor and soundness for `calout` members. -/
theorem calout_sound {m : model_t} {d i : Poly} {f : Nat} {args : List Poly}
    (h : m ∈ calout d i f args) : m.spoly = d ∧ soundModel args m := by
  simp only [calout] at h
  split at h
  · simp at h
  · exact chkres_sound h

/-- Divisor and soundness for `calini` members. -/
theorem calini_sound {m : model_t} {d x : Poly} {f : Nat} {args : List Poly}
    (h : m ∈ calini d f x args) : m.spoly = d ∧ soundModel args m := by
  simp only [calini] at h
  split at h
  · simp at h
  · exact chkres_sound h

/-- Divisor and soundness for the members of `engini()`'s solution
loop. -/
theorem solveLoop_sound {m : model_t} {d : Poly} {f dlen : Nat} {args : List Poly} :
    ∀ {fuel : Nat} {mat : Array Row}, m ∈ solveLoop d f args dlen fuel mat →
      m.spoly = d ∧ soundModel args m := by
  intro fuel
  induction fuel with
  | zero => intro mat h; simp [solveLoop] at h
  | succ n ih =>
    intro mat h
    simp only [solveLoop] at h
    split at h
    · exact calout_sound h
    · rcases List.mem_append.mp h with h1 | h2
      · exact calout_sound h1
      · exact ih h2

/-- Divisor and soundness for `engini` members. -/
theorem engini_sound {m : model_t} {d : Poly} {f : Nat} {args : List Poly}
    (h : m ∈ engini d f args) : m.spoly = d ∧ soundModel args m := by
  simp only [engini] at h
  split at h
  · exact calini_sound h
  · exact solveLoop_sound h

/-- Divisor and soundness for `dispch` members: whatever arm the flags
select, the emitted models carry the dispatched divisor and pass the
model check. -/
theorem dispch_sound {m g : model_t} {d : Poly} {rf : Nat} {args : List Poly}
    (h : m ∈ dispch g d rf args) : m.spoly = d ∧ soundModel args m := by
  simp only [dispch] at h
  split at h
  · exact chkres_sound h
  · split at h
    · exact calout_sound h
    · split at h
      · exact calini_sound h
      · exact engini_sound h

/-- Every model emitted by one trial of the enumeration loop comes out of
`dispch` (for some divisor: the factor itself, or in short mode the
chopped quotient). -/
theorem trialModels_sound {m g : model_t} {pw f : Poly} {rf : Nat} {args : List Poly}
    (h : m ∈ trialModels g pw f rf args) :
    ∃ d, m ∈ dispch g d rf args := by
  simp only [trialModels] at h
  split at h
  · split at h
    · exact ⟨_, h⟩
    · simp at h
  · split at h
    · exact ⟨_, h⟩
    · simp at h

/-- Divisor-existence and soundness for the members of the trial loop. -/
theorem factorLoop_sound {m g : model_t} {pw qq : Poly} {rf : Nat} {args : List Poly} :
    ∀ {fuel : Nat} {f : Poly} {spin seq : Nat},
      m ∈ (factorLoop g pw qq rf args fuel f spin seq).1 →
      ∃ d, m ∈ dispch g d rf args := by
  intro fuel
  induction fuel with
  | zero => intro f spin seq h; simp [factorLoop] at h
  | succ n ih =>
    intro f spin seq h
    simp only [factorLoop] at h
    split at h
    · split at h
      · rcases List.mem_append.mp h with h1 | h2
        · exact trialModels_sound h1
        · exact ih h2
      · exact trialModels_sound h
    · simp at h

/-- Divisor-existence and soundness for the poly-unknown arm (the search
may dispatch under flags with `R_SHORT` set or `R_HAVEQ` cleared, hence
the existential over the flag word). -/
theorem revengSearch_sound {m g : model_t} {q : Poly} {rf : Nat} {args : List Poly}
    (h : m ∈ (revengSearch g q rf args).1) : ∃ d rf2, m ∈ dispch g d rf2 args := by
  simp only [revengSearch] at h
  split at h
  · simp at h
  · split at h
    · simp at h
    · split at h
      · exact ⟨_, _, h⟩
      · split at h
        next heq => simp at h
        next st heq =>
          have h2 : m ∈ (factorLoop g (modpol g.init rf args) st.2.1 st.2.2 args
              (2 ^ plen (pshift st.1 0 0 (plen st.1 - 1) 1) + 1)
              (pshift st.1 0 0 (plen st.1 - 1) 1) 0 0).1 := h
          obtain ⟨d, hd⟩ := factorLoop_sound h2
          exact ⟨d, st.2.2, hd⟩

/-- Every model `reveng()` places in its result array — the sentinel
included — passes the model check of `chkres()`. -/
theorem reveng_sound {m g : model_t} {q : Poly} {rf : Nat} {args : List Poly}
    (h : m ∈ (reveng g q rf args).1) : soundModel args m := by
  simp only [reveng] at h
  rcases List.mem_append.mp h with h1 | h2
  · split at h1
    · exact (dispch_sound h1).2
    · obtain ⟨d, rf2, hd⟩ := revengSearch_sound h1
      exact (dispch_sound hd).2
  · simp only [List.mem_singleton] at h2
    subst h2
    exact soundModel_mzero args

/-! ## Numeric value of polynomials, `pcmp` and `piter` -/

/-- The value of a polynomial is bounded by its width. -/
theorem pval_lt_two_pow : ∀ p : Poly, pval p < 2 ^ p.length := by
  intro p
  induction p with
  | nil => simp [pval]
  | cons b t ih =>
    simp only [pval, List.length_cons, pow_succ]
    cases b <;> simp <;> omega

/-- On equal lengths, `pcmp` is negative exactly when the numeric value
is smaller. -/
theorem pcmp_neg_iff : ∀ {a b : Poly}, a.length = b.length →
    (pcmp a b < 0 ↔ pval a < pval b) := by
  intro a
  induction a with
  | nil =>
    intro b hb
    cases b with
    | nil => simp [pcmp, pval]
    | cons x xs => simp at hb
  | cons x xs ih =>
    intro b hb
    cases b with
    | nil => simp at hb
    | cons y ys =>
      simp only [List.length_cons, Nat.succ_inj] at hb
      have hxy := pval_lt_two_pow xs
      have hyy := pval_lt_two_pow ys
      cases x <;> cases y <;>
        simp only [pcmp, pval, if_true, if_false, hb] <;>
        simp_all <;> omega

/-- On equal lengths, `pcmp` is nonnegative exactly when the numeric
value is at least as large. -/
theorem pcmp_nonneg_iff {a b : Poly} (h : a.length = b.length) :
    (0 ≤ pcmp a b ↔ pval b ≤ pval a) := by
  rw [← Int.not_lt, ← Nat.not_lt, not_iff_not]
  exact pcmp_neg_iff h

/-- `incLE` preserves the width. -/
theorem incLE_len : ∀ l : List Bool, (incLE l).1.length = l.length := by
  intro l
  induction l with
  | nil => rfl
  | cons b bs ih => cases b <;> simp [incLE, ih]

/-- `incLE` adds one, with the carry worth `2 ^ width`. -/
theorem incLE_val : ∀ l : List Bool,
    pvalLE (incLE l).1 + (if (incLE l).2 then 2 ^ l.length else 0) = pvalLE l + 1 := by
  intro l
  induction l with
  | nil => simp [incLE, pvalLE]
  | cons b bs ih =>
    cases b with
    | false => simp [incLE, pvalLE] <;> omega
    | true =>
      simp [incLE, pvalLE, pow_succ]
      split at ih <;> split <;> simp_all <;> omega

/-- Little-endian value of a snoc. -/
theorem pvalLE_append_bit : ∀ (l : List Bool) (b : Bool),
    pvalLE (l ++ [b]) = pvalLE l + (if b then 2 ^ l.length else 0) := by
  intro l b
  induction l with
  | nil => cases b <;> simp [pvalLE]
  | cons x xs ih =>
    simp [pvalLE, ih, pow_succ]
    cases x <;> cases b <;> simp <;> omega

/-- The MSB-first value is the little-endian value of the reverse. -/
theorem pval_eq_pvalLE_reverse : ∀ p : Poly, pval p = pvalLE p.reverse := by
  intro p
  induction p with
  | nil => rfl
  | cons b t ih =>
    simp [pval, pvalLE_append_bit, ih]
    omega

/-- MSB-first value of a snoc. -/
theorem pval_append_bit (l : List Bool) (b : Bool) :
    pval (l ++ [b]) = 2 * pval l + (if b then 1 else 0) := by
  induction l with
  | nil => cases b <;> simp [pval]
  | cons x xs ih =>
    simp [pval, ih, pow_succ]
    cases x <;> cases b <;> simp <;> omega

/-- `piter` preserves the width. -/
theorem piter_len (p : Poly) : (piter p).1.length = p.length := by
  simp [piter, incLE_len]

/-- While it has not wrapped, `piter` increments the value by one. -/
theorem piter_val {p : Poly} (h : (piter p).2 = true) :
    pval (piter p).1 = pval p + 1 := by
  have hv := incLE_val p.reverse
  simp only [piter] at h ⊢
  rw [pval_eq_pvalLE_reverse, List.reverse_reverse, pval_eq_pvalLE_reverse]
  simp only [Bool.not_eq_true'] at h
  rw [h] at hv
  simpa using hv

/-- The least-significant-term clear performed before the trial loop
(`pshift(&factor, factor, 0, 0, plen(factor)-1, 1)`) drops the last bit
and appends a zero. -/
theorem pshift_clearLSB {p : Poly} (h : p ≠ []) :
    pshift p 0 0 (p.length - 1) 1 = p.dropLast ++ [false] := by
  simp only [pshift, List.replicate, List.nil_append, Nat.sub_zero]
  congr 1
  apply List.ext_getElem
  · simp [List.length_dropLast]
  · intro i h1 h2
    simp only [List.length_map, List.length_range] at h1
    simp only [List.getElem_map, List.getElem_range, List.getElem_dropLast, Nat.zero_add]
    exact List.getD_eq_getElem p false (by omega)

/-- Clearing the least significant term lowers the value by at most
one. -/
theorem pval_clearLSB {p : Poly} (h : p ≠ []) :
    pval p ≤ pval (pshift p 0 0 (p.length - 1) 1) + 1 := by
  rw [pshift_clearLSB h, pval_append_bit]
  conv_lhs => rw [← List.dropLast_append_getLast h, pval_append_bit]
  split <;> omega

/-- Width of the cleared factor. -/
theorem len_clearLSB {p : Poly} (h : p ≠ []) :
    (pshift p 0 0 (p.length - 1) 1).length = p.length := by
  rw [pshift_clearLSB h]
  simp only [List.length_append, List.length_dropLast, List.length_cons, List.length_nil]
  have hl : 0 < p.length := List.length_pos.mpr h
  omega

/-- Clearing flag bits really clears them. -/
theorem clearF_and_self (f b : Nat) : clearF f b &&& b = 0 := by
  apply Nat.eq_of_testBit_eq
  intro i
  simp only [clearF, Nat.testBit_and, Nat.testBit_xor, Nat.zero_testBit]
  cases f.testBit i <;> cases b.testBit i <;> rfl

/-- Outside short mode a trial emits through `dispch` with the trial
factor itself as the divisor. -/
theorem trialModels_mem_nonshort {m g : model_t} {pw f : Poly} {rf : Nat}
    {args : List Poly} (hs : rf &&& R_SHORT = 0)
    (h : m ∈ trialModels g pw f rf args) : m ∈ dispch g f rf args := by
  simp only [trialModels] at h
  rw [if_neg (by omega)] at h
  split at h
  · exact h
  · simp at h

/-- Range invariant of the trial loop outside short mode: with `R_HAVEQ`
set, every emitted model's `spoly` is a poly of the trial width whose
value exceeds every value the factor has taken so far and which compares
strictly below the range end. -/
theorem factorLoop_range {g : model_t} {pw qq : Poly} {rf : Nat} {args : List Poly}
    (hs : rf &&& R_SHORT = 0) (hq : rf &&& R_HAVEQ ≠ 0) :
    ∀ (fuel : Nat) (f : Poly) (spin seq v0 : Nat), v0 ≤ pval f →
      ∀ m ∈ (factorLoop g pw qq rf args fuel f spin seq).1,
        m.spoly.length = f.length ∧ pcmp m.spoly qq < 0 ∧ v0 + 1 ≤ pval m.spoly := by
  intro fuel
  induction fuel with
  | zero => intro f spin seq v0 hv m hm; simp [factorLoop] at hm
  | succ n ih =>
    intro f spin seq v0 hv m hm
    simp only [factorLoop] at hm
    split at hm
    case isTrue hc =>
      simp only [Bool.and_eq_true, Bool.or_eq_true, decide_eq_true_eq] at hc
      obtain ⟨hok, hcmp⟩ := hc
      have hcmp2 : pcmp (piter f).1 qq < 0 := by
        rcases hcmp with h0 | h1
        · exact absurd h0 hq
        · exact h1
      have hv1 : pval (piter f).1 = pval f + 1 := piter_val hok
      split at hm
      case isTrue hok2 =>
        rcases List.mem_append.mp hm with h1 | h2
        · have hd := trialModels_mem_nonshort hs h1
          have hsp := (dispch_sound hd).1
          refine ⟨by rw [hsp, piter_len], by rwa [hsp], by rw [hsp]; omega⟩
        · have hrec := ih (piter (piter f).1).1 (spin + 1)
            (if spin &&& R_SPMASK = 0 then seq + 1 else seq) v0
            (by rw [piter_val hok2, hv1]; omega) m h2
          rcases hrec with ⟨hl, hc2, hv2⟩
          rw [piter_len, piter_len] at hl
          exact ⟨hl, hc2, hv2⟩
      case isFalse =>
        have hd := trialModels_mem_nonshort hs hm
        have hsp := (dispch_sound hd).1
        refine ⟨by rw [hsp, piter_len], by rwa [hsp], by rw [hsp]; omega⟩
    case isFalse => simp at hm

/-- Clearing disjoint flag bits leaves a flag untouched. -/
theorem clearF_and_other {b c : Nat} (f : Nat) (h : b &&& c = 0) :
    clearF f b &&& c = f &&& c := by
  apply Nat.eq_of_testBit_eq
  intro i
  have hbc : (b &&& c).testBit i = false := by rw [h]; exact Nat.zero_testBit i
  simp only [Nat.testBit_and, Nat.testBit_xor, clearF] at hbc ⊢
  cases hb : b.testBit i <;> cases hc : c.testBit i <;>
    simp_all <;> cases f.testBit i <;> rfl

/-- When the GCD of the differences is too short, the poly-unknown search
abandons: only the sentinel is returned and no progress is reported
(reveng.c:89). -/
theorem reveng_gcd_small {g : model_t} {q : Poly} {rf : Nat} {args : List Poly}
    (hp : rf &&& R_HAVEP = 0) (hw : plen g.spoly ≠ 0)
    (hlen : plen (modpol g.init rf args) < plen g.spoly + 1) :
    reveng g q rf args = ([mzero], []) := by
  simp only [reveng, revengSearch]
  rw [if_neg (by omega), if_neg hw, if_pos hlen]
  rfl

/-- When the GCD of the differences has exactly the generator's length,
it is chopped and dispatched as the unique candidate; no enumeration
takes place (reveng.c:96). -/
theorem reveng_gcd_exact {g : model_t} {q : Poly} {rf : Nat} {args : List Poly}
    (hp : rf &&& R_HAVEP = 0) (hw : plen g.spoly ≠ 0)
    (hlen : plen (modpol g.init rf args) = plen g.spoly + 1) :
    reveng g q rf args =
      (dispch g (pshift (modpol g.init rf args) 0 1 (plen (modpol g.init rf args)) 0)
          rf args ++ [mzero], []) := by
  simp only [reveng, revengSearch]
  rw [if_neg (by omega), if_neg hw, if_neg (by omega), if_pos hlen]

/-- When the start polynomial is rejected by the short-mode range
validation, the search abandons with only the sentinel (reveng.c:127). -/
theorem reveng_setup_none {g : model_t} {q : Poly} {rf : Nat} {args : List Poly}
    (hp : rf &&& R_HAVEP = 0) (hw : plen g.spoly ≠ 0)
    (hgt : plen g.spoly + 1 < plen (modpol g.init rf args))
    (hnone : searchSetup g.spoly (if rf &&& R_HAVEQ ≠ 0 then q else [])
      (clearF rf R_SHORT) (plen (modpol g.init rf args)) = none) :
    reveng g q rf args = ([mzero], []) := by
  simp only [reveng, revengSearch, pclone_eq]
  rw [if_neg (by omega), if_neg hw, if_neg (by omega), if_neg (by omega), hnone]
  rfl

/-- The enumeration path: after set-up, the result array is the trial
loop's emissions followed by the sentinel, and the progress events are
the loop's (reveng.c:149). -/
theorem reveng_enum_some {g : model_t} {q : Poly} {rf : Nat} {args : List Poly}
    {st : Poly × Poly × Nat}
    (hp : rf &&& R_HAVEP = 0) (hw : plen g.spoly ≠ 0)
    (hgt : plen g.spoly + 1 < plen (modpol g.init rf args))
    (hsome : searchSetup g.spoly (if rf &&& R_HAVEQ ≠ 0 then q else [])
      (clearF rf R_SHORT) (plen (modpol g.init rf args)) = some st) :
    reveng g q rf args =
      ((factorLoop g (modpol g.init rf args) st.2.1 st.2.2 args
          (2 ^ plen (pshift st.1 0 0 (plen st.1 - 1) 1) + 1)
          (pshift st.1 0 0 (plen st.1 - 1) 1) 0 0).1 ++ [mzero],
       (factorLoop g (modpol g.init rf args) st.2.1 st.2.2 args
          (2 ^ plen (pshift st.1 0 0 (plen st.1 - 1) 1) + 1)
          (pshift st.1 0 0 (plen st.1 - 1) 1) 0 0).2.1) := by
  simp only [reveng, revengSearch, pclone_eq]
  rw [if_neg (by omega), if_neg hw, if_neg (by omega), if_neg (by omega), hsome]

/-- Outside short mode the set-up leaves everything unchanged. -/
theorem searchSetup_nonshort {factor qq : Poly} {rf lenD : Nat}
    (h : ¬lenD ≤ 2 * plen factor) :
    searchSetup factor qq rf lenD = some (factor, qq, rf) := by
  simp [searchSetup, h]

/-- `pright` yields exactly the requested length. -/
theorem pright_len (p : Poly) (n : Nat) : plen (pright p n) = n := by
  by_cases h : n ≤ p.length <;> simp [pright, plen, h] <;> omega

/-- Setting disjoint flag bits leaves a flag untouched. -/
theorem orF_and_other {b c : Nat} (f : Nat) (h : b &&& c = 0) :
    (f ||| b) &&& c = f &&& c := by
  apply Nat.eq_of_testBit_eq
  intro i
  have hbc : (b &&& c).testBit i = false := by rw [h]; exact Nat.zero_testBit i
  simp only [Nat.testBit_and, Nat.testBit_or] at hbc ⊢
  cases hb : b.testBit i <;> cases hc : c.testBit i <;>
    simp_all <;> cases f.testBit i <;> rfl

/-- Setting a flag bit really sets it. -/
theorem orF_and_self (f b : Nat) : (f ||| b) &&& b = b := by
  apply Nat.eq_of_testBit_eq
  intro i
  simp only [Nat.testBit_and, Nat.testBit_or]
  cases f.testBit i <;> cases b.testBit i <;> rfl

/-! ## The claims -/

/-- C10: with `R_HAVEP`, `R_HAVEI` and `R_HAVEX` all set and an empty
sample list, the verification loop of `chkres()` passes vacuously, so
exactly one candidate model — carrying the guess's spoly, init, xorout
and flags (completed by `mcheck`) — is appended, followed by the
zero-filled sentinel, and no progress or error is produced by the
core. -/
theorem claim_C10 (guess : model_t) (qpoly : Poly) (rflags : Nat)
    (hp : rflags &&& R_HAVEP ≠ 0) (hi : rflags &&& R_HAVEI ≠ 0)
    (hx : rflags &&& R_HAVEX ≠ 0) :
    reveng guess qpoly rflags [] =
      ([mcheck { spoly := guess.spoly, init := guess.init, flags := guess.flags,
                 xorout := guess.xorout, check := [], magic := [], name := none },
        mzero], []) := by
  simp only [reveng]
  rw [if_pos hp]
  simp only [dispch]
  rw [if_pos ⟨hi, hx⟩]
  simp [chkres]

/-- Witness for C10 at a concrete guess. -/
theorem claim_C10_witness :
    (R_HAVEP ||| R_HAVEI ||| R_HAVEX) &&& R_HAVEP ≠ 0 ∧
    (R_HAVEP ||| R_HAVEI ||| R_HAVEX) &&& R_HAVEI ≠ 0 ∧
    (R_HAVEP ||| R_HAVEI ||| R_HAVEX) &&& R_HAVEX ≠ 0 ∧
    reveng { spoly := [true, true], init := [false, true], flags := P_MULXN,
             xorout := [true, false], check := [], magic := [], name := none }
        [] (R_HAVEP ||| R_HAVEI ||| R_HAVEX) [] =
      ([mcheck { spoly := [true, true], init := [false, true], flags := P_MULXN,
                 xorout := [true, false], check := [], magic := [], name := none },
        mzero], []) :=
  ⟨by decide, by decide, by decide,
   claim_C10 _ [] (R_HAVEP ||| R_HAVEI ||| R_HAVEX) (by decide) (by decide) (by decide)⟩

/-- C2: the dispatch structure.  With `R_HAVEP` set, `reveng()` routes
the guess's spoly through `dispch` and returns its emissions plus the
sentinel.  `dispch` branches on which remaining parameters are given:
both init and xorout — `chkres`; init only — `calout`; xorout only —
`calini`; neither — `engini`.  With `R_HAVEP` clear, every model the
factor search emits also comes out of the same four-way `dispch` (for
some dividing-factor divisor and the flags as adjusted by the set-up). -/
theorem claim_C2 :
    (∀ (g : model_t) (q : Poly) (rf : Nat) (args : List Poly), rf &&& R_HAVEP ≠ 0 →
        reveng g q rf args = (dispch g g.spoly rf args ++ [mzero], [])) ∧
    (∀ (g : model_t) (d : Poly) (rf : Nat) (args : List Poly),
        (rf &&& R_HAVEI ≠ 0 → rf &&& R_HAVEX ≠ 0 →
          dispch g d rf args = chkres d g.init g.flags g.xorout args) ∧
        (rf &&& R_HAVEI ≠ 0 → rf &&& R_HAVEX = 0 →
          dispch g d rf args = calout d g.init g.flags args) ∧
        (rf &&& R_HAVEI = 0 → rf &&& R_HAVEX ≠ 0 →
          dispch g d rf args = calini d g.flags g.xorout args) ∧
        (rf &&& R_HAVEI = 0 → rf &&& R_HAVEX = 0 →
          dispch g d rf args = engini d g.flags args)) ∧
    (∀ (g : model_t) (q : Poly) (rf : Nat) (args : List Poly), rf &&& R_HAVEP = 0 →
        ∀ m ∈ (reveng g q rf args).1.dropLast, ∃ d rf2, m ∈ dispch g d rf2 args) := by
  refine ⟨?_, ?_, ?_⟩
  · intro g q rf args hp
    simp only [reveng]
    rw [if_pos hp]
  · intro g d rf args
    refine ⟨?_, ?_, ?_, ?_⟩ <;> intro h1 h2 <;> simp only [dispch]
    · rw [if_pos ⟨h1, h2⟩]
    · rw [if_neg (by omega), if_pos h1]
    · rw [if_neg (by omega), if_neg (by omega), if_pos h2]
    · rw [if_neg (by omega), if_neg (by omega), if_neg (by omega)]
  · intro g q rf args hp m hm
    simp only [reveng] at hm
    rw [if_neg (by omega)] at hm
    rw [List.dropLast_concat] at hm
    exact revengSearch_sound hm

/-- Witness for C2 at concrete inputs: the `R_HAVEP` route and the
chkres arm of the four-way branch. -/
theorem claim_C2_witness :
    (reveng { spoly := [true], init := [false], flags := 0, xorout := [false],
              check := [], magic := [], name := none }
        [] (R_HAVEP ||| R_HAVEI ||| R_HAVEX) [] =
      (dispch { spoly := [true], init := [false], flags := 0, xorout := [false],
                check := [], magic := [], name := none }
          [true] (R_HAVEP ||| R_HAVEI ||| R_HAVEX) [] ++ [mzero], [])) ∧
    (dispch { spoly := [true], init := [false], flags := 0, xorout := [false],
              check := [], magic := [], name := none }
        [true] (R_HAVEP ||| R_HAVEI ||| R_HAVEX) [] =
      chkres [true] [false] 0 [false] []) :=
  ⟨claim_C2.1 _ [] (R_HAVEP ||| R_HAVEI ||| R_HAVEX) [] (by decide),
   (claim_C2.2.1 _ [true] (R_HAVEP ||| R_HAVEI ||| R_HAVEX) []).1 (by decide) (by decide)⟩

/-- C3: GCD thresholds.  With the poly unknown, after computing the GCD
`D` of the sample differences: if `len(D) < width + 1` the search is
abandoned with no candidate model; if `len(D) = width + 1` then `D` with
its top term chopped off is dispatched as the unique candidate generator
and no enumeration (hence no progress event) takes place. -/
theorem claim_C3 (g : model_t) (q : Poly) (rf : Nat) (args : List Poly)
    (hp : rf &&& R_HAVEP = 0) (hw : plen g.spoly ≠ 0) :
    (plen (modpol g.init rf args) < plen g.spoly + 1 →
        reveng g q rf args = ([mzero], [])) ∧
    (plen (modpol g.init rf args) = plen g.spoly + 1 →
        reveng g q rf args =
          (dispch g (pshift (modpol g.init rf args) 0 1 (plen (modpol g.init rf args)) 0)
            rf args ++ [mzero], [])) :=
  ⟨fun h => reveng_gcd_small hp hw h, fun h => reveng_gcd_exact hp hw h⟩

/-- Witness for C3: a run whose differences-GCD is shorter than
`width + 1` (equal samples) and one whose GCD has exactly length
`width + 1`. -/
theorem claim_C3_witness :
    (plen (modpol ([false] : Poly) (R_HAVEI ||| R_HAVEX) [[true], [true]]) <
        plen ([true] : Poly) + 1 ∧
      reveng { spoly := [true], init := [false], flags := 0, xorout := [false],
               check := [], magic := [], name := none }
          [] (R_HAVEI ||| R_HAVEX) [[true], [true]] = ([mzero], [])) ∧
    (plen (modpol ([false] : Poly) (R_HAVEI ||| R_HAVEX) [[true, true], [false, false]]) =
        plen ([true] : Poly) + 1 ∧
      reveng { spoly := [true], init := [false], flags := 0, xorout := [false],
               check := [], magic := [], name := none }
          [] (R_HAVEI ||| R_HAVEX) [[true, true], [false, false]] =
        (dispch { spoly := [true], init := [false], flags := 0, xorout := [false],
                  check := [], magic := [], name := none }
            (pshift (modpol [false] (R_HAVEI ||| R_HAVEX) [[true, true], [false, false]])
              0 1 (plen (modpol [false] (R_HAVEI ||| R_HAVEX) [[true, true], [false, false]])) 0)
            (R_HAVEI ||| R_HAVEX) [[true, true], [false, false]] ++ [mzero], [])) :=
  ⟨⟨by decide,
    (claim_C3 _ [] (R_HAVEI ||| R_HAVEX) [[true], [true]] (by decide) (by decide)).1 (by decide)⟩,
   ⟨by decide,
    (claim_C3 _ [] (R_HAVEI ||| R_HAVEX) [[true, true], [false, false]] (by decide)
      (by decide)).2 (by decide)⟩⟩

/-- C1 is false as stated: its RefOut conditional is the reverse of the
one `chkres()` applies (the code reflects `xorout` when `REFOUT` is set,
not when it is clear), and `chkres()` verifies with `pcrc` flags 0, not
the model's flags.  Concretely: a REFOUT, MULXN model accepted by the
search fails the claim's formula on the accepted sample. -/
theorem claim_C1_counterexample :
    ∃ m ∈ (reveng { spoly := [true, true], init := [false, false],
                    flags := P_MULXN ||| P_REFOUT, xorout := [true, false],
                    check := [], magic := [], name := none }
        [] (R_HAVEP ||| R_HAVEI ||| R_HAVEX) [[false, true]]).1,
      ∃ s ∈ [[false, true]],
        ptst (pcrc s m.spoly m.init
          (if m.flags &&& P_REFOUT ≠ 0 then m.xorout else prev m.xorout) m.flags) = true := by
  decide

/-- C1 (amended): every model `reveng()` places in its result array
satisfies `pcrc(s, spoly, init, xorout', 0) = 0` for every sample `s`,
where `xorout'` is `prev(xorout)` when `REFOUT` is set in the model's
flags and `xorout` otherwise (the non-augmenting check performed by
`chkres()`). -/
theorem claim_C1_amended (g : model_t) (q : Poly) (rf : Nat) (args : List Poly)
    {m : model_t} (h : m ∈ (reveng g q rf args).1) (s : Poly) (hs : s ∈ args) :
    ptst (pcrc s m.spoly m.init
      (if m.flags &&& P_REFOUT ≠ 0 then prev m.xorout else m.xorout) 0) = false :=
  reveng_sound h s hs

set_option maxRecDepth 40000 in
/-- Witness for the amended C1 on a concrete accepted model and
sample. -/
theorem claim_C1_witness :
    mcheck { spoly := [true, true], init := [false, false], flags := 0,
             xorout := [false, true], check := [], magic := [], name := none } ∈
      (reveng { spoly := [true, true], init := [false, false], flags := 0,
                xorout := [false, true], check := [], magic := [], name := none }
          [] (R_HAVEP ||| R_HAVEI ||| R_HAVEX) [[false, true]]).1 ∧
    ptst (pcrc [false, true]
      (mcheck { spoly := [true, true], init := [false, false], flags := 0,
                xorout := [false, true], check := [], magic := [], name := none }).spoly
      (mcheck { spoly := [true, true], init := [false, false], flags := 0,
                xorout := [false, true], check := [], magic := [], name := none }).init
      (if (mcheck { spoly := [true, true], init := [false, false], flags := 0,
                    xorout := [false, true], check := [], magic := [], name := none }).flags
            &&& P_REFOUT ≠ 0 then
        prev (mcheck { spoly := [true, true], init := [false, false], flags := 0,
                       xorout := [false, true], check := [], magic := [], name := none }).xorout
       else
        (mcheck { spoly := [true, true], init := [false, false], flags := 0,
                  xorout := [false, true], check := [], magic := [], name := none }).xorout)
      0) = false :=
  ⟨by decide,
   claim_C1_amended
     { spoly := [true, true], init := [false, false], flags := 0,
       xorout := [false, true], check := [], magic := [], name := none }
     [] (R_HAVEP ||| R_HAVEI ||| R_HAVEX) [[false, true]] (by decide)
     [false, true] (by decide)⟩

/-- C4 is false as stated: in short mode the dispatched generator is the
cofactor of the trial factor, which is not compared against the range
end, so a result can satisfy `pcmp(spoly, qpoly) ≥ 0` even with
`HAVEP = 0, HAVEQ = 1`.  Concretely, with width 2, start 0, `qpoly` =
x (bits 10) and samples whose differences-GCD is x^3 + 1 (short mode),
the search emits the generator x^2 + x + 1 (bits 11), which compares
at or above `qpoly`. -/
theorem claim_C4_counterexample :
    ∃ m ∈ (reveng { spoly := [false, false], init := [false, false], flags := 0,
                    xorout := [false, false], check := [], magic := [], name := none }
        [true, false] (R_HAVEI ||| R_HAVEX ||| R_HAVEQ)
        [[true, false, false, true], [false, false, false, false]]).1.dropLast,
      0 ≤ pcmp m.spoly [true, false] := by
  decide

/-- C4 (amended): with `HAVEP = 0` and `HAVEQ = 1`, provided the search
reaches the factor enumeration in non-short mode (`len D > 2 * width`),
every non-sentinel result lies in the requested range:
`pcmp(spoly, qpoly) < 0` and `pcmp(spoly, startPoly) ≥ 0`. -/
theorem claim_C4_amended (g : model_t) (q : Poly) (rf : Nat) (args : List Poly)
    (hp : rf &&& R_HAVEP = 0) (hq : rf &&& R_HAVEQ ≠ 0) (hw : plen g.spoly ≠ 0)
    (hns : 2 * plen g.spoly < plen (modpol g.init rf args)) :
    ∀ m ∈ (reveng g q rf args).1.dropLast,
      pcmp m.spoly q < 0 ∧ 0 ≤ pcmp m.spoly g.spoly := by
  intro m hm
  have hwpos : 0 < plen g.spoly := Nat.pos_of_ne_zero hw
  have hgt : plen g.spoly + 1 < plen (modpol g.init rf args) := by omega
  have hsome := @searchSetup_nonshort g.spoly (if rf &&& R_HAVEQ ≠ 0 then q else [])
    (clearF rf R_SHORT) (plen (modpol g.init rf args)) (by omega)
  rw [reveng_enum_some hp hw hgt hsome, List.dropLast_concat] at hm
  dsimp only at hm
  rw [if_pos hq] at hm
  have hne : g.spoly ≠ [] := by
    intro hnil; exact hw (by simp [plen, hnil])
  have hs0 : clearF rf R_SHORT &&& R_SHORT = 0 := clearF_and_self rf R_SHORT
  have hq0 : clearF rf R_SHORT &&& R_HAVEQ ≠ 0 := by
    rw [clearF_and_other rf (by decide)]
    exact hq
  obtain ⟨hlen, hcmp, hval⟩ := factorLoop_range hs0 hq0
    (2 ^ plen (pshift g.spoly 0 0 (plen g.spoly - 1) 1) + 1)
    (pshift g.spoly 0 0 (plen g.spoly - 1) 1) 0 0
    (pval (pshift g.spoly 0 0 (plen g.spoly - 1) 1)) (le_refl _) m hm
  simp only [plen] at hlen
  rw [len_clearLSB hne] at hlen
  have hv2 : pval g.spoly ≤ pval m.spoly :=
    le_trans (pval_clearLSB hne) hval
  exact ⟨hcmp, (pcmp_nonneg_iff hlen).mpr hv2⟩

/-- Witness for the amended C4: a non-short run with `HAVEQ` whose only
emission x^2 + 1 lies inside the range. -/
theorem claim_C4_witness :
    ((R_HAVEI ||| R_HAVEX ||| R_HAVEQ) &&& R_HAVEP = 0 ∧
      2 * plen ([false, false] : Poly) <
        plen (modpol [false, false] (R_HAVEI ||| R_HAVEX ||| R_HAVEQ)
          [[true, true, false, true, true], [false, false, false, false, false]])) ∧
    (∀ m ∈ (reveng { spoly := [false, false], init := [false, false], flags := 0,
                     xorout := [false, false], check := [], magic := [], name := none }
        [true, true] (R_HAVEI ||| R_HAVEX ||| R_HAVEQ)
        [[true, true, false, true, true], [false, false, false, false, false]]).1.dropLast,
      pcmp m.spoly [true, true] < 0 ∧ 0 ≤ pcmp m.spoly [false, false]) ∧
    (reveng { spoly := [false, false], init := [false, false], flags := 0,
              xorout := [false, false], check := [], magic := [], name := none }
        [true, true] (R_HAVEI ||| R_HAVEX ||| R_HAVEQ)
        [[true, true, false, true, true], [false, false, false, false, false]]).1.dropLast ≠ [] :=
  ⟨⟨by decide, by decide⟩,
   claim_C4_amended _ [true, true] (R_HAVEI ||| R_HAVEX ||| R_HAVEQ)
     [[true, true, false, true, true], [false, false, false, false, false]]
     (by decide) (by decide) (by decide) (by decide),
   by decide⟩

/-- C8 is false as stated: the "no polynomial specified" validation of
`-c` mode is commented out in the source (cli.c:317 to 322), so with an
empty generator the driver computes (zero-length) CRCs instead of
erroring. -/
theorem claim_C8_counterexample :
    calcMode { spoly := [], init := [], flags := P_MULXN, xorout := [],
               check := [], magic := [], name := none } 0 [[true]] =
      Except.ok [([] : Poly)] := by
  rfl

/-- C8 (amended): in CRC-calculation mode the driver performs no
"no polynomial specified" validation: with zero width the CRC of every
argument is computed and is the zero-length poly, and the mode never
raises an error. -/
theorem claim_C8_amended (model : model_t) (args : List Poly) :
    calcMode model 0 args = Except.ok (args.map (fun _ => ([] : Poly))) := by
  have h0 : ∀ p : Poly, pright p 0 = [] := by
    intro p; simp [pright]
  simp only [calcMode, mcanon, h0, pnorm]
  by_cases hro : model.flags &&& P_REFOUT = 0 <;> simp [hro, pcrc_nil]

/-- The preset pass hands the model back with its flags intact: either no
toggle happens (`R_HAVERI`), or RefIn and RefOut are toggled once per
pass over two passes. -/
theorem presetPass_flags (presets : List model_t) (m : model_t) (w rf ib : Nat)
    (args : List Poly) : (presetPass presets m w rf ib args).2.1.flags = m.flags := by
  simp only [presetPass]
  split
  · rfl
  · simp [Nat.xor_cancel_right]

/-- `searchPrep` preserves the reflection flags of the driver's model:
the width adjustments touch only the polynomial fields and the preset
pass restores the flag toggles. -/
theorem searchPrep_flags (presets : List model_t) (model0 : model_t) (qpoly : Poly)
    (rflags0 uflags width ibperhx : Nat) (args : List Poly) :
    (searchPrep presets model0 qpoly rflags0 uflags width ibperhx args).1.2.1.flags =
      model0.flags := by
  simp only [searchPrep]
  split
  · rw [presetPass_flags]
    split <;> rfl
  · split <;> rfl

/-- C9: crossed-endian rejection.  In search mode a model whose `REFIN`
and `REFOUT` flags differ is never passed to `reveng()`'s brute-force
search: every successful outcome of the driver has an empty list of
`reveng` invocations, and whenever the driver reaches the brute-force
stage — Williams-compliant model, positive width, no preset hit, and not
aborted by `-G` — it terminates fatally through the error callback with
"cannot search for crossed-endian models". -/
theorem claim_C9 (presets : List model_t) (model0 : model_t) (qpoly : Poly)
    (rflags0 uflags width ibperhx : Nat) (args : List Poly)
    (hcross : crossedEndian model0.flags = true) :
    (∀ o, searchMode presets model0 qpoly rflags0 uflags width ibperhx args = Except.ok o →
        o.revengCalls = []) ∧
    (model0.flags &&& P_MULXN ≠ 0 → width ≠ 0 →
      (searchPrep presets model0 qpoly rflags0 uflags width ibperhx args).1.1 = [] →
      ¬(uflags &&& C_NOBFS ≠ 0 ∧
        (searchPrep presets model0 qpoly rflags0 uflags width ibperhx args).2 &&& R_HAVEP = 0) →
      searchMode presets model0 qpoly rflags0 uflags width ibperhx args =
        Except.error "cannot search for crossed-endian models") := by
  have hflags := searchPrep_flags presets model0 qpoly rflags0 uflags width ibperhx args
  constructor
  · intro o ho
    simp only [searchMode] at ho
    split at ho
    · exact absurd ho (by simp)
    · split at ho
      · exact absurd ho (by simp)
      · split at ho
        · cases ho; rfl
        · split at ho
          · exact absurd ho (by simp)
          · split at ho
            next => exact absurd ho (by simp)
            next hcr =>
              rw [hflags] at hcr
              exact absurd hcross hcr
  · intro hm hw hpre hnb
    simp only [searchMode]
    rw [if_neg (by omega), if_neg hw, if_neg (by simpa using hpre), if_neg hnb,
      if_pos (by rw [hflags]; exact hcross)]

/-- Spec-side definition for the C6 refinement, following the claim's
words: a pair of equal-length samples contributes their XOR; when
`R_HAVEI` is set, an unequal-length pair contributes the XOR of the
right-aligned pair with `init` additionally XORed into the leftmost
`width` bits of each of the two operands; when `R_HAVEI` is clear,
unequal-length pairs contribute nothing. -/
def diffOfPair (init : Poly) (rflags : Nat) (a b : Poly) : Poly :=
  if plen a = plen b then pxor a b
  else if rflags &&& R_HAVEI = 0 then []
  else
    let s := if plen a < plen b then a else b
    let l := if plen a < plen b then b else a
    psum (psum l init 0) (psum s init 0) (plen l - plen s)

/-- Spec-side definition for the C6 refinement: the GCD of all pairwise
differences, with fewer than two samples giving the zero polynomial, and
the reduction step exactly as the claim describes it (swap when
`len(gcd) < len(work)`, take `pmod`, swap again, repeat until the
normalized remainder is zero — the `gcdLoop` translated from the
source). -/
def modpolSpec (init : Poly) (rflags : Nat) (argpolys : List Poly) : Poly :=
  if argpolys.length < 2 then []
  else
    (allPairs argpolys).foldl (fun gcd ab =>
      let w1 := pnorm (diffOfPair init rflags ab.1 ab.2)
      if plen w1 ≠ 0 then
        if plen gcd = 0 then w1
        else gcdLoop (plen gcd + plen w1 + 2) gcd w1
      else gcd) []

/-- An empty source leaves the destination untouched at any offset. -/
theorem psum_nil_src : ∀ (x : Poly) (k : Nat), psum x [] k = x := by
  intro x
  induction x with
  | nil => intro k; rfl
  | cons d ds ih =>
    intro k
    cases k with
    | zero => rfl
    | succ m => simp [psum, ih]

/-- A patch entirely beyond the destination's end is dropped. -/
theorem psum_beyond : ∀ (x u : Poly) (k : Nat), x.length ≤ k → psum x u k = x := by
  intro x
  induction x with
  | nil => intros; rfl
  | cons d ds ih =>
    intro u k hk
    cases k with
    | zero => simp at hk
    | succ m =>
      simp only [List.length_cons] at hk
      simp [psum, ih u m (by omega)]

/-- XOR patches into the same destination commute. -/
theorem psum_comm : ∀ (x u v : Poly) (i j : Nat),
    psum (psum x u i) v j = psum (psum x v j) u i := by
  intro x
  induction x with
  | nil => intros; rfl
  | cons d ds ih =>
    intro u v i j
    cases i with
    | zero =>
      cases u with
      | nil => simp [psum_nil_src]
      | cons a as =>
        cases j with
        | zero =>
          cases v with
          | nil => simp [psum_nil_src]
          | cons b bs =>
            simp only [psum]
            refine congrArg₂ _ ?_ (ih as bs 0 0)
            cases d <;> cases a <;> cases b <;> rfl
        | succ m =>
          cases v with
          | nil => simp [psum_nil_src]
          | cons b bs =>
            simp only [psum]
            exact congrArg _ (ih as (b :: bs) 0 m)
    | succ k =>
      cases j with
      | zero =>
        cases v with
        | nil => simp [psum_nil_src]
        | cons b bs =>
          simp only [psum]
          exact congrArg _ (ih u bs k 0)
      | succ m =>
        simp only [psum]
        exact congrArg _ (ih u v k m)


/-- Patching a pre-patched slice equals patching twice at the slice's
offset, when the slice reaches exactly to the destination's end (the
alignment used by `modpol()`). -/
theorem psum_psum_zero : ∀ (x s u : Poly) (off : Nat), off + s.length = x.length →
    psum x (psum s u 0) off = psum (psum x s off) u off := by
  intro x
  induction x with
  | nil => intros; rfl
  | cons d ds ih =>
    intro s u off hoff
    cases off with
    | zero =>
      cases s with
      | nil => simp at hoff
      | cons a as =>
        cases u with
        | nil => simp [psum_nil_src]
        | cons c cs =>
          simp only [psum]
          simp only [List.length_cons, Nat.zero_add, Nat.succ_inj] at hoff
          refine congrArg₂ _ ?_ (ih as cs 0 (by omega))
          cases d <;> cases a <;> cases c <;> rfl
    | succ k =>
      cases s with
      | nil =>
        rw [psum_nil_src]
        have hx : (d :: ds).length ≤ k + 1 := by
          simp only [List.length_nil] at hoff
          omega
        rw [psum_beyond (d :: ds) (psum [] u 0) (k + 1) hx,
          psum_beyond (d :: ds) u (k + 1) hx]
      | cons a as =>
        simp only [psum]
        simp only [List.length_cons] at hoff
        exact congrArg _ (ih (a :: as) u k (by simp only [List.length_cons]; omega))

/-- `psum` preserves the destination's length. -/
theorem psum_length : ∀ (d s : Poly) (k : Nat), (psum d s k).length = d.length := by
  intro d
  induction d with
  | nil => intros; rfl
  | cons x xs ih =>
    intro s k
    cases k with
    | zero =>
      cases s with
      | nil => rfl
      | cons y ys => simp [psum, ih]
    | succ m => simp [psum, ih]

/-- On equal lengths, `psum` at offset zero is the plain XOR. -/
theorem psum_zero_eq_pxor : ∀ {a b : Poly}, a.length = b.length →
    psum a b 0 = pxor a b := by
  intro a
  induction a with
  | nil =>
    intro b hb
    cases b with
    | nil => rfl
    | cons y ys => simp at hb
  | cons x xs ih =>
    intro b hb
    cases b with
    | nil => simp at hb
    | cons y ys =>
      simp only [List.length_cons, Nat.succ_inj] at hb
      simp only [psum, pxor, List.zipWith]
      exact congrArg _ (ih hb)

/-- The per-pair difference computed by `modpol()` agrees with the
claim's description of it. -/
theorem pairWork_eq_diffOfPair (init : Poly) (rflags : Nat) (a b : Poly) :
    pairWork init rflags a b = diffOfPair init rflags a b := by
  simp only [pairWork, diffOfPair, pclone_eq]
  by_cases heq : plen a = plen b
  · rw [if_pos heq, if_pos heq]
    exact psum_zero_eq_pxor heq
  · rw [if_neg heq, if_neg heq]
    by_cases hi : rflags &&& R_HAVEI = 0
    · rw [if_pos hi, if_neg (by omega), if_neg (by omega)]
    · rw [if_neg hi]
      by_cases hab : plen a < plen b
      · rw [if_pos ⟨hi, hab⟩, if_pos hab, if_pos hab]
        have hlen : (plen b - plen a) + a.length = (psum b init 0).length := by
          have := psum_length b init 0
          simp only [plen] at hab ⊢
          omega
        rw [psum_psum_zero (psum b init 0) a init (plen b - plen a) hlen,
          psum_comm b init a 0 (plen b - plen a),
          psum_comm (psum b a (plen b - plen a)) init init 0 (plen b - plen a)]
      · rw [if_neg (by omega), if_pos hi, if_neg hab, if_neg hab]
        have hba : plen b < plen a := by omega
        have hlen : (plen a - plen b) + b.length = (psum a init 0).length := by
          have := psum_length a init 0
          simp only [plen] at hba ⊢
          omega
        rw [psum_psum_zero (psum a init 0) b init (plen a - plen b) hlen,
          psum_comm a init b 0 (plen a - plen b),
          psum_comm (psum a b (plen a - plen b)) init init 0 (plen a - plen b)]

/-- Normalising is what the guarded normalisation of `modpol()` does:
the zero-length poly normalises to itself. -/
theorem pnorm_guard (p : Poly) : (if plen p ≠ 0 then pnorm p else p) = pnorm p := by
  cases p with
  | nil => simp [plen, pnorm]
  | cons x xs => rw [if_pos (by simp [plen])]

/-- The refinement behind C6: `modpol()` computes exactly the spec-side
GCD of pairwise differences. -/
theorem modpol_eq_modpolSpec (init : Poly) (rflags : Nat) (argpolys : List Poly) :
    modpol init rflags argpolys = modpolSpec init rflags argpolys := by
  simp only [modpol, modpolSpec]
  split
  · rfl
  · have hfun : (fun (gcd : Poly) (ab : Poly × Poly) =>
        let w0 := pairWork init rflags ab.1 ab.2
        let w1 := if plen w0 ≠ 0 then pnorm w0 else w0
        if plen w1 ≠ 0 then
          if plen gcd = 0 then pcpy gcd w1
          else gcdLoop (plen gcd + plen w1 + 2) gcd w1
        else gcd) =
        (fun (gcd : Poly) (ab : Poly × Poly) =>
          let w1 := pnorm (diffOfPair init rflags ab.1 ab.2)
          if plen w1 ≠ 0 then
            if plen gcd = 0 then w1
            else gcdLoop (plen gcd + plen w1 + 2) gcd w1
          else gcd) := by
      funext gcd ab
      simp only [pairWork_eq_diffOfPair, pnorm_guard, pcpy_eq]
    rw [hfun]

/-- C6: `modpol()` computes the GCD of all pairwise differences of the
samples exactly as described: equal-length pairs contribute their XOR;
under `R_HAVEI` an unequal-length pair contributes the right-aligned XOR
with `init` XORed into the leftmost bits of each operand; without
`R_HAVEI` unequal pairs contribute nothing; fewer than two samples give
the zero polynomial; and the reduction step swaps, takes `pmod`, swaps
again and repeats until the work normalises to zero (`gcdLoop`). -/
theorem claim_C6 :
    (∀ (init : Poly) (rflags : Nat) (argpolys : List Poly),
        modpol init rflags argpolys = modpolSpec init rflags argpolys) ∧
    (∀ (init : Poly) (rflags : Nat) (argpolys : List Poly), argpolys.length < 2 →
        modpol init rflags argpolys = []) ∧
    (∀ (init : Poly) (rflags : Nat) (a b : Poly), plen a = plen b →
        diffOfPair init rflags a b = pxor a b) ∧
    (∀ (init : Poly) (rflags : Nat) (a b : Poly), plen a ≠ plen b →
        rflags &&& R_HAVEI = 0 → diffOfPair init rflags a b = []) := by
  refine ⟨modpol_eq_modpolSpec, ?_, ?_, ?_⟩
  · intro init rflags argpolys h
    simp only [modpol]
    rw [if_pos h]
  · intro init rflags a b h
    simp only [diffOfPair]
    rw [if_pos h]
  · intro init rflags a b h hi
    simp only [diffOfPair]
    rw [if_neg h, if_pos hi]

/-- Witness for C6 on a concrete sample set (two equal-length and one
longer sample, `R_HAVEI` set). -/
theorem claim_C6_witness :
    modpol [true] (R_HAVEI) [[true, true], [false, true], [true, false, true]] =
      modpolSpec [true] (R_HAVEI) [[true, true], [false, true], [true, false, true]] ∧
    ([[true, true]] : List Poly).length < 2 ∧
    modpol [true] R_HAVEI [[true, true]] = [] ∧
    plen ([true, true] : Poly) = plen ([false, true] : Poly) ∧
    diffOfPair [true] R_HAVEI [true, true] [false, true] = pxor [true, true] [false, true] :=
  ⟨claim_C6.1 [true] R_HAVEI [[true, true], [false, true], [true, false, true]],
   by decide,
   claim_C6.2.1 [true] R_HAVEI [[true, true]] (by decide),
   by decide,
   claim_C6.2.2.1 [true] R_HAVEI [true, true] [false, true] (by decide)⟩

/-- Without `R_HAVEQ` the trial loop never consults the range end: its
outcome is independent of the `qqpoly` argument, so it terminates only
when the factor rolls over (or fuel, which bounds the rollover, runs
out). -/
theorem factorLoop_qq_irrel {g : model_t} {pw : Poly} {rf : Nat} {args : List Poly}
    (h : rf &&& R_HAVEQ = 0) :
    ∀ (fuel : Nat) (f : Poly) (spin seq : Nat) (qq1 qq2 : Poly),
      factorLoop g pw qq1 rf args fuel f spin seq =
        factorLoop g pw qq2 rf args fuel f spin seq := by
  intro fuel
  induction fuel with
  | zero => intros; rfl
  | succ n ih =>
    intro f spin seq qq1 qq2
    simp only [factorLoop, h, decide_True, Bool.true_or, Bool.and_true]
    split
    · split
      · rw [ih]
      · rfl
    · rfl

/-- C5: short-mode endpoints.  When the differences-GCD `D` satisfies
`len(D) ≤ 2 * width` (and enumeration is reached), the set-up enters
short mode with the trial factor truncated to `len(D) - width - 1` bits;
if the start polynomial lies above the all-ones maximum of the reduced
length the search aborts with no candidates; if the range end lies above
that maximum, `R_HAVEQ` is cleared and the enumeration no longer
consults the range end (it stops only on rollover); otherwise the end
polynomial is truncated to the reduced length. -/
theorem claim_C5 :
    (∀ (factor qq : Poly) (rf lenD : Nat) (st : Poly × Poly × Nat),
        lenD ≤ 2 * plen factor → searchSetup factor qq rf lenD = some st →
        st.2.2 &&& R_SHORT ≠ 0 ∧ plen st.1 = lenD - plen factor - 1) ∧
    (∀ (g : model_t) (q : Poly) (rf : Nat) (args : List Poly),
        rf &&& R_HAVEP = 0 → plen g.spoly ≠ 0 →
        plen g.spoly + 1 < plen (modpol g.init rf args) →
        plen (modpol g.init rf args) ≤ 2 * plen g.spoly →
        (rf &&& R_HAVEQ ≠ 0 ∨ ptst g.spoly = true) →
        pcmp (pright (pinv (palloc (plen (modpol g.init rf args) - plen g.spoly - 1)))
          (plen g.spoly)) g.spoly < 0 →
        reveng g q rf args = ([mzero], [])) ∧
    (∀ (factor qq : Poly) (rf lenD : Nat),
        lenD ≤ 2 * plen factor → rf &&& R_HAVEQ ≠ 0 →
        0 ≤ pcmp (pright (pinv (palloc (lenD - plen factor - 1))) (plen factor)) factor →
        pcmp (pright (pinv (palloc (lenD - plen factor - 1))) (plen factor)) qq < 0 →
        searchSetup factor qq rf lenD =
          some (pright factor (lenD - plen factor - 1), qq,
            clearF (rf ||| R_SHORT) R_HAVEQ) ∧
        clearF (rf ||| R_SHORT) R_HAVEQ &&& R_HAVEQ = 0) ∧
    (∀ (g : model_t) (pw : Poly) (rf : Nat) (args : List Poly), rf &&& R_HAVEQ = 0 →
        ∀ (fuel : Nat) (f : Poly) (spin seq : Nat) (qq1 qq2 : Poly),
          factorLoop g pw qq1 rf args fuel f spin seq =
            factorLoop g pw qq2 rf args fuel f spin seq) ∧
    (∀ (factor qq : Poly) (rf lenD : Nat),
        lenD ≤ 2 * plen factor → rf &&& R_HAVEQ ≠ 0 →
        0 ≤ pcmp (pright (pinv (palloc (lenD - plen factor - 1))) (plen factor)) factor →
        0 ≤ pcmp (pright (pinv (palloc (lenD - plen factor - 1))) (plen factor)) qq →
        searchSetup factor qq rf lenD =
          some (pright factor (lenD - plen factor - 1),
            pright qq (lenD - plen factor - 1), rf ||| R_SHORT)) := by
  have hsq : R_SHORT &&& R_HAVEQ = 0 := by decide
  have hq_or : ∀ rf : Nat, (rf ||| R_SHORT) &&& R_HAVEQ = rf &&& R_HAVEQ :=
    fun rf => orF_and_other rf hsq
  refine ⟨?_, ?_, ?_, ?_, ?_⟩
  · intro factor qq rf lenD st hshort hst
    simp only [searchSetup] at hst
    rw [if_pos hshort] at hst
    have hshortbit : (rf ||| R_SHORT) &&& R_SHORT ≠ 0 := by
      rw [orF_and_self]; decide
    split at hst
    · split at hst
      · exact absurd hst (by simp)
      · split at hst
        · cases hst
          refine ⟨?_, pright_len _ _⟩
          dsimp only
          rw [clearF_and_other _ (by decide : R_HAVEQ &&& R_SHORT = 0)]
          exact hshortbit
        · split at hst
          · cases hst
            exact ⟨hshortbit, pright_len _ _⟩
          · cases hst
            exact ⟨hshortbit, pright_len _ _⟩
    · cases hst
      exact ⟨hshortbit, pright_len _ _⟩
  · intro g q rf args hp hw hgt hshort hguard hstart
    have hnone : searchSetup g.spoly (if rf &&& R_HAVEQ ≠ 0 then q else [])
        (clearF rf R_SHORT) (plen (modpol g.init rf args)) = none := by
      simp only [searchSetup]
      rw [if_pos hshort, if_pos ?_, if_pos hstart]
      rw [hq_or, clearF_and_other rf (by decide)]
      exact hguard
    exact reveng_setup_none hp hw hgt hnone
  · intro factor qq rf lenD hshort hq hstart hend
    have hguard : (rf ||| R_SHORT) &&& R_HAVEQ ≠ 0 ∨ ptst factor = true := by
      rw [hq_or]; exact Or.inl hq
    refine ⟨?_, ?_⟩
    · simp only [searchSetup]
      rw [if_pos hshort, if_pos hguard, if_neg (by omega), if_pos hend]
    · rw [clearF_and_self]
  · intro g pw rf args h
    exact factorLoop_qq_irrel h
  · intro factor qq rf lenD hshort hq hstart hend
    have hq1 : (rf ||| R_SHORT) &&& R_HAVEQ ≠ 0 := by rw [hq_or]; exact hq
    simp only [searchSetup]
    rw [if_pos hshort, if_pos (Or.inl hq1), if_neg (by omega), if_neg (by omega),
      if_pos hq1]

/-- Witness for C5 on concrete short-mode runs: the truncation, the
start-out-of-range abort, and the range-end overflow clearing
`R_HAVEQ`. -/
theorem claim_C5_witness :
    ((searchSetup [false, false] [true, false] R_HAVEQ 4 =
        some ([false], [true, false], clearF (R_HAVEQ ||| R_SHORT) R_HAVEQ)) ∧
      clearF (R_HAVEQ ||| R_SHORT) R_HAVEQ &&& R_HAVEQ = 0) ∧
    reveng { spoly := [true, false], init := [false, false], flags := 0,
             xorout := [false, false], check := [], magic := [], name := none }
        [true, true] (R_HAVEI ||| R_HAVEX ||| R_HAVEQ)
        [[true, false, false, true], [false, false, false, false]] = ([mzero], []) ∧
    searchSetup [false, false] [false, true] R_HAVEQ 4 =
      some ([false], [true], R_HAVEQ ||| R_SHORT) :=
  ⟨(claim_C5.2.2.1 [false, false] [true, false] R_HAVEQ 4 (by decide) (by decide)
      (by decide) (by decide)),
   claim_C5.2.1 _ [true, true] (R_HAVEI ||| R_HAVEX ||| R_HAVEQ)
     [[true, false, false, true], [false, false, false, false]]
     (by decide) (by decide) (by decide) (by decide) (by decide) (by decide),
   claim_C5.2.2.2.2 [false, false] [false, true] R_HAVEQ 4 (by decide) (by decide)
     (by decide) (by decide)⟩

/-- The spinner mask test is a modulus test: `R_SPMASK` is
`2 ^ 18 - 1`. -/
theorem land_mask (n : Nat) : n &&& R_SPMASK = n % 2 ^ 18 := by
  apply Nat.eq_of_testBit_eq
  intro i
  rw [Nat.testBit_and, Nat.testBit_mod_two_pow]
  have hm : R_SPMASK = 2 ^ 18 - 1 := rfl
  rw [hm, Nat.testBit_two_pow_sub_one]
  cases Nat.testBit n i <;> simp

/-- `spin & R_SPMASK` vanishes exactly on multiples of
`R_SPMASK + 1`. -/
theorem spmask_hit (n : Nat) : (n &&& R_SPMASK = 0) ↔ n % (R_SPMASK + 1) = 0 := by
  rw [land_mask, (by decide : R_SPMASK + 1 = 2 ^ 18)]

/-- Splitting off the first trial from the filtered trial indices. -/
theorem range_map_filter_succ (spin n : Nat) (p : Nat → Bool) :
    ((List.range (n + 1)).map (fun t => spin + t)).filter p =
      (if p spin then [spin] else []) ++
        ((List.range n).map (fun t => spin + 1 + t)).filter p := by
  rw [List.range_succ_eq_map]
  simp only [List.map_cons, Nat.add_zero, List.map_map]
  have hfun : ((fun t => spin + t) ∘ Nat.succ) = (fun t => spin + 1 + t) := by
    funext t
    simp [Function.comp]
    omega
  rw [hfun, List.filter_cons]
  split <;> simp

/-- Progress pattern of the trial loop: starting from counters
`(spin, seq)`, the recorded trial indices are exactly the multiples of
`R_SPMASK + 1` among the `spin + t` for the trials examined, and the
sequence numbers are consecutive from `seq`. -/
theorem factorLoop_prog {g : model_t} {pw qq : Poly} {rf : Nat} {args : List Poly} :
    ∀ (fuel : Nat) (f : Poly) (spin seq : Nat),
      ((factorLoop g pw qq rf args fuel f spin seq).2.1.map (fun e => e.trial) =
        ((List.range (factorLoop g pw qq rf args fuel f spin seq).2.2).map
          (fun t => spin + t)).filter (fun t => t % (R_SPMASK + 1) = 0)) ∧
      ((factorLoop g pw qq rf args fuel f spin seq).2.1.map (fun e => e.seq) =
        List.range' seq (factorLoop g pw qq rf args fuel f spin seq).2.1.length) := by
  intro fuel
  induction fuel with
  | zero => intro f spin seq; simp [factorLoop]
  | succ n ih =>
    intro f spin seq
    simp only [factorLoop]
    split
    case isTrue hc =>
      by_cases hhit : spin &&& R_SPMASK = 0
      · have hp : (spin % (R_SPMASK + 1) = 0) := (spmask_hit spin).mp hhit
        rw [if_pos hhit]
        split
        next hok2 =>
          obtain ⟨iht, ihs⟩ := ih (piter (piter f).1).1 (spin + 1) (seq + 1)
          constructor
          · simp only [List.map_append, List.map_cons, List.map_nil, iht,
              range_map_filter_succ]
            rw [if_pos (by simpa using hp)]
          · simp only [List.map_append, List.map_cons, List.map_nil, ihs,
              List.length_append, List.length_cons, List.length_nil]
            generalize (factorLoop g pw qq rf args n
              (piter (piter f).1).1 (spin + 1) (seq + 1)).2.1.length = L
            rw [show 0 + 1 + L = L + 1 by omega, List.range'_succ]
            simp
        next =>
          constructor
          · simp [range_map_filter_succ, hp]
          · simp [List.range'_succ]
      · have hp : ¬(spin % (R_SPMASK + 1) = 0) := fun h => hhit ((spmask_hit spin).mpr h)
        rw [if_neg hhit]
        split
        next hok2 =>
          obtain ⟨iht, ihs⟩ := ih (piter (piter f).1).1 (spin + 1) seq
          constructor
          · simp only [List.nil_append, iht, range_map_filter_succ]
            rw [if_neg (by simpa using hp)]
            simp
          · simpa using ihs
        next =>
          constructor
          · simp [range_map_filter_succ, hp]
          · simp
    case isFalse => simp

/-- C7: progress reporting.  During the factor enumeration (which
`reveng()` runs with `spin = seq = 0`), the progress callback is invoked
exactly on the trial candidates whose index is a multiple of
`R_SPMASK + 1` — the first candidate and then every `R_SPMASK + 1`
candidates — and the sequence numbers of the successive calls are
exactly 0, 1, 2, …, hence strictly monotonically increasing.  The CLI
driver's `uprog` returns immediately, producing no output, when
`seq = 0`. -/
theorem claim_C7 :
    (∀ (g : model_t) (pw qq : Poly) (rf : Nat) (args : List Poly) (fuel : Nat) (f : Poly),
      ((factorLoop g pw qq rf args fuel f 0 0).2.1.map (fun e => e.trial) =
        (List.range (factorLoop g pw qq rf args fuel f 0 0).2.2).filter
          (fun t => t % (R_SPMASK + 1) = 0)) ∧
      ((factorLoop g pw qq rf args fuel f 0 0).2.1.map (fun e => e.seq) =
        List.range (factorLoop g pw qq rf args fuel f 0 0).2.1.length)) ∧
    (∀ (p : Poly) (fl : Nat), uprog p fl 0 = none) := by
  constructor
  · intro g pw qq rf args fuel f
    obtain ⟨ht, hs⟩ := factorLoop_prog fuel f 0 0
    constructor
    · simpa using ht
    · rw [hs, List.range_eq_range']
  · intro p fl
    simp [uprog]

/-- Witness for C9: a crossed model (`REFOUT` set, `REFIN` clear) with an
empty catalog reaches the brute-force stage and dies with the
crossed-endian error. -/
theorem claim_C9_witness :
    crossedEndian (P_MULXN ||| P_REFOUT) = true ∧
    searchMode [] { spoly := [], init := [], flags := P_MULXN ||| P_REFOUT, xorout := [],
                    check := [], magic := [], name := none } [] 0 0 1 8 [] =
      Except.error "cannot search for crossed-endian models" :=
  ⟨by decide,
   (claim_C9 [] { spoly := [], init := [], flags := P_MULXN ||| P_REFOUT, xorout := [],
                  check := [], magic := [], name := none } [] 0 0 1 8 []
     (by decide)).2 (by decide) (by decide) (by decide) (by decide)⟩

end Reveng
